import Mathlib

/-!
Verification model of the NCCL P2P transport (`src/transport/p2p.cc`).

The C source is shallowly embedded.  The `p2pMemcpyEvent` completion-graph
operations become pure functions over an event store; the copy-engine progress
routine `p2pSendProxyProgress` is embedded twice, once for each value of the
`MERGE_MEMCPY` compile-time switch (the batched path compiled in the
repository, and the un-batched fallback path); setup, teardown and the
capability probe become explicit state-passing functions.  Hardware event
completion and native-call outcomes are oracles supplied to each call.
Device pointers are modelled as natural-number identities; byte contents of
device buffers are not modelled (no claim below depends on them).
-/

namespace P2P

/-- Depth of the step ring: the NCCL constant `NCCL_STEPS` (8). -/
def NCCL_STEPS : Nat := 8

/-- Protocol index of `NCCL_PROTO_SIMPLE` (LL = 0, LL128 = 1, SIMPLE = 2). -/
def NCCL_PROTO_SIMPLE : Nat := 2

/-- `ROUNDUP(x, y)` from the NCCL utility macros: round `x` up to a multiple
of `y` (`DIVUP(x,y)*y`). -/
def roundUp (x y : Nat) : Nat := ((x + y - 1) / y) * y

/-- `struct p2pMemcpyEvent`: `flag` is the resolved flag (C `int` 0/1),
`tracking` the optional tracked target, `trackers` the registered tracker
aliases.  The node's hardware `cudaEvent_t` is identified with the node index
itself and is polled through an oracle at query time.  (The `cnt` field of the
C struct is never read or written in `p2p.cc` and is omitted.) -/
structure MemcpyEvent (ι : Type) where
  flag : Bool
  tracking : Option ι
  trackers : List ι
deriving DecidableEq, Repr

/-- An arena of event nodes indexed by `ι` (in the progress engine, by
resource index and ring slot). -/
def EvStore (ι : Type) := ι → MemcpyEvent ι

/-- Pointwise update of one node of the arena. -/
def evUpdate {ι : Type} [DecidableEq ι] (st : EvStore ι) (i : ι) (e : MemcpyEvent ι) :
    EvStore ι :=
  fun j => if j = i then e else st j

/-- `p2pMemcpyEventCreate`: a fresh node is resolved (`flag = 1`), tracks
nothing, and has no trackers. -/
def p2pMemcpyEventCreate {ι : Type} : MemcpyEvent ι := ⟨true, none, []⟩

/-- Erase the first occurrence of `y` (the C code erases the first matching
iterator from the `trackers` vector and breaks). -/
def eraseFirst {ι : Type} [DecidableEq ι] : List ι → ι → List ι
  | [], _ => []
  | x :: xs, y => if x = y then xs else x :: eraseFirst xs y

/-- `p2pMemcpyEventRecord`: before re-arming, propagate the node's current
resolved flag to every pending tracker and clear the tracker set; then submit
the hardware event (always succeeds in this model), mark the node unresolved
and clear its tracked target. -/
def p2pMemcpyEventRecord {ι : Type} [DecidableEq ι] (st : EvStore ι) (i : ι) : EvStore ι :=
  let e := st i
  let st1 := e.trackers.foldl (fun acc tr => evUpdate acc tr { acc tr with flag := e.flag }) st
  evUpdate st1 i { st1 i with flag := false, tracking := none, trackers := [] }

/-- `p2pMemcpyEventTrack e t`: fails if `t` already has a tracked target, or
if `e` has pending trackers of its own; otherwise sets `e`'s tracked target to
`t`, mirrors `t`'s resolved flag into `e`, and, when `t` is unresolved,
registers `e` in `t`'s tracker set. -/
def p2pMemcpyEventTrack {ι : Type} [DecidableEq ι] (st : EvStore ι) (e t : ι) :
    Except Unit (EvStore ι) :=
  if (st t).tracking ≠ none then .error ()
  else if (st e).trackers ≠ [] then .error ()
  else
    let tf := (st t).flag
    let st1 := evUpdate st e { st e with tracking := some t, flag := tf }
    if tf = false then
      .ok (evUpdate st1 t { st1 t with trackers := (st1 t).trackers ++ [e] })
    else .ok st1

/-- `p2pMemcpyEventUntrack e`: when `e` has a tracked target, remove `e` from
that target's tracker set and mark `e` resolved if it was unresolved, then
clear the tracked-target link; a node with no tracked target is left
untouched. -/
def p2pMemcpyEventUntrack {ι : Type} [DecidableEq ι] (st : EvStore ι) (e : ι) : EvStore ι :=
  match (st e).tracking with
  | none => st
  | some t =>
    if (st e).flag = false then
      let st1 := evUpdate st t { st t with trackers := eraseFirst (st t).trackers e }
      let st2 := evUpdate st1 e { st1 e with flag := true }
      evUpdate st2 e { st2 e with tracking := none }
    else
      evUpdate st e { st e with tracking := none }

/-- `p2pMemcpyEventQuery e`: if `e` is resolved, return true; if it tracks
another node, recurse into that node's query; otherwise poll the hardware
event through the oracle `hw` — on completion mark `e` resolved, propagate
resolution to every registered tracker and clear the tracker set.  The
returned list records which hardware events were polled (observational
instrumentation; the C code has no such output).  Fuel bounds the recursion
through `tracking` links; exhaustion is an error (the C recursion would not
terminate on a cyclic chain). -/
def p2pMemcpyEventQuery {ι : Type} [DecidableEq ι] (hw : ι → Bool) :
    Nat → EvStore ι → ι → Except Unit (Bool × EvStore ι × List ι)
  | 0, _, _ => .error ()
  | fuel + 1, st, i =>
    if (st i).flag = true then .ok (true, st, [])
    else
      match (st i).tracking with
      | some t => p2pMemcpyEventQuery hw fuel st t
      | none =>
        if hw i then
          let st1 := (st i).trackers.foldl
            (fun acc tr => evUpdate acc tr { acc tr with flag := true }) st
          let st2 := evUpdate st1 i { st1 i with flag := true, trackers := [] }
          .ok (true, st2, [i])
        else .ok (false, st, [i])

/-! ### Progress-engine state (CE / staged mode)

State of one proxy connection's `p2pProxyInfo` plus the comm-wide fields used
by the batched drain.  Event nodes live in a comm-level arena keyed by
`(resource index, ring slot)` — a faithful flattening of the per-resource
`events[NCCL_STEPS]` arrays that lets cross-resource tracker links be plain
keys. -/

/-- Key of an event node: `(resource index, ring slot)`. -/
abbrev EvKey := Nat × Nat

/-- The per-connection `p2pProxyInfo` fields used by the progress engine.
`shmTail` is `shm->recvMem.tail` (the consumer-visible shared tail),
`ceTail` is `ceRecvMem->tail` (the tail published by the producing GPU),
`sizesFifo` is `ceRecvMem->sizesFifo`.  `recvFifo` and `ceDevBuff` are
pointer identities. -/
structure ProxyRes where
  step : Nat
  shmTail : Nat
  ceTail : Nat
  sizesFifo : Nat → Nat
  recvFifo : Nat
  ceDevBuff : Nat
  offsets : Nat → Nat

/-- One entry of `comm->memcpyInfo[bidx]`. -/
structure MemcpyInfoEntry where
  proxyInfo : Nat
  buffSlot : Nat
  channelId : Nat
deriving DecidableEq, Repr

/-- One issued `cudaMemcpyAsync` (destination address, source address, byte
count), recorded observationally. -/
structure CopyRec where
  dst : Nat
  src : Nat
  size : Nat
deriving DecidableEq, Repr

/-- Comm-wide state: the resource table (indexed by connection), the event
arena, the two-slot batched-drain accumulation table
(`memcpyDstBase[2]` / `memcpyInfo[2]`), and observational logs of issued
copies and polled hardware events. -/
structure Comm where
  nChannels : Nat
  stepSize : Nat
  resources : Nat → ProxyRes
  events : EvStore EvKey
  dstBase0 : Option Nat
  dstBase1 : Option Nat
  info0 : List MemcpyInfoEntry
  info1 : List MemcpyInfoEntry
  copies : List CopyRec
  polls : List EvKey

/-- Update one resource of the comm. -/
def updRes (c : Comm) (r : Nat) (f : ProxyRes → ProxyRes) : Comm :=
  { c with resources := fun j => if j = r then f (c.resources j) else c.resources j }

/-- One `ncclProxySubArgs`: `resIdx` stands for
`sub->connection->transportResources`. -/
structure ProxySubArgs where
  resIdx : Nat
  channelId : Nat
  nsteps : Nat
  base : Nat
  posted : Nat
  transmitted : Nat
  done : Nat
deriving DecidableEq, Repr

/-- The op state machine `ncclProxyOpReady -> ncclProxyOpProgress ->
ncclProxyOpNone`. -/
inductive ProxyOpState where
  | ready
  | progress
  | opNone
deriving DecidableEq, Repr

/-- The `ncclProxyArgs` fields used by `p2pSendProxyProgress`.
`isLastInChain` models `args->next == nullptr` (the batched drain runs only
on the last op of the chain). -/
structure ProxyArgs where
  state : ProxyOpState
  subs : List ProxySubArgs
  done : Nat
  idle : Nat
  sliceSteps : Nat
  chunkSteps : Nat
  protocol : Nat
  isLastInChain : Bool

/-- A complete progress-engine state: comm plus one op. -/
structure State where
  comm : Comm
  args : ProxyArgs

/-! ### The batched progress path (`MERGE_MEMCPY == 1`, as compiled) -/

/-- The `done` drain loop of the batched path (p2p.cc lines 667-685): while
the slice at cursor `done` has a resolved completion event (queried through
the event graph, honouring tracked aliases), untrack it, advance `done` one
slice, republish the consumer-visible shared tail as `base + done`, and when
`done` reaches `nsteps` persist the step cursor and bump the op's done tally.
Fuel bounds the iteration count; exhaustion is an error. -/
def doneLoopM (hw : EvKey → Bool) (qf slice : Nat) :
    Nat → Comm → ProxySubArgs → Nat → Except Unit (Comm × ProxySubArgs × Nat)
  | 0, _, _, _ => .error ()
  | fuel + 1, c, sub, d =>
    if sub.done < sub.transmitted then
      let buffSlot := (sub.base + sub.done) % NCCL_STEPS
      match p2pMemcpyEventQuery hw qf c.events (sub.resIdx, buffSlot) with
      | .error _ => .error ()
      | .ok (result, ev1, polled) =>
        let c1 : Comm := { c with events := ev1, polls := c.polls ++ polled }
        if result then
          let c2 : Comm :=
            { c1 with events := p2pMemcpyEventUntrack c1.events (sub.resIdx, buffSlot) }
          let sub1 := { sub with done := sub.done + slice }
          let c3 := updRes c2 sub.resIdx
            (fun r => { r with shmTail := sub1.base + sub1.done })
          let p :=
            if sub1.done = sub1.nsteps then
              (updRes c3 sub.resIdx (fun r => { r with step := sub1.base + sub1.nsteps }), d + 1)
            else (c3, d)
          doneLoopM hw qf slice fuel p.1 sub1 p.2
        else
          let p :=
            if sub.done = sub.nsteps then
              (updRes c1 sub.resIdx (fun r => { r with step := sub.base + sub.nsteps }), d + 1)
            else (c1, d)
          .ok (p.1, sub, p.2)
    else .ok (c, sub, d)

/-- Claim a slot of the two-entry destination table `memcpyDstBase` for the
destination base pointer `rf` (p2p.cc lines 698-709): reuse a matching slot,
claim an empty one, or fail when both slots are taken by other pointers. -/
def pickDst (c : Comm) (rf : Nat) : Option (Comm × Bool) :=
  match c.dstBase0 with
  | none => some ({ c with dstBase0 := some rf }, false)
  | some p =>
    if p = rf then some (c, false)
    else
      match c.dstBase1 with
      | none => some ({ c with dstBase1 := some rf }, true)
      | some q => if q = rf then some (c, true) else none

/-- Append an accumulation entry to `memcpyInfo[bidx]`. -/
def addInfo (c : Comm) (b : Bool) (e : MemcpyInfoEntry) : Comm :=
  if b then { c with info1 := c.info1 ++ [e] } else { c with info0 := c.info0 ++ [e] }

/-- The `transmitted` loop of the batched path (p2p.cc lines 687-723): while
the window `done + NCCL_STEPS` and the total step count allow it and the
producer's published tail exceeds `base + transmitted`, record the slice's
destination/slot/channel into the per-destination accumulation table and
advance `transmitted` one slice. -/
def transmittedLoopM (slice : Nat) :
    Nat → Comm → ProxySubArgs → Except Unit (Comm × ProxySubArgs)
  | 0, _, _ => .error ()
  | fuel + 1, c, sub =>
    if sub.transmitted < sub.done + NCCL_STEPS ∧ sub.transmitted < sub.nsteps then
      let buffSlot := (sub.base + sub.transmitted) % NCCL_STEPS
      if sub.base + sub.transmitted < (c.resources sub.resIdx).ceTail then
        match pickDst c (c.resources sub.resIdx).recvFifo with
        | none => .error ()
        | some (c1, bidx) =>
          let c2 := addInfo c1 bidx ⟨sub.resIdx, buffSlot, sub.channelId⟩
          transmittedLoopM slice fuel c2 { sub with transmitted := sub.transmitted + slice }
      else .ok (c, sub)
    else .ok (c, sub)

/-- Build the `sizes[NCCL_STEPS][MAXCHANNELS]` table of the batched drain
(p2p.cc lines 749-763): zero-filled, then each accumulated entry writes the
producer's current `sizesFifo[buffSlot]` into cell `(buffSlot, channelId)`. -/
def buildSizes (c : Comm) (entries : List MemcpyInfoEntry) : Nat × Nat → Nat :=
  entries.foldl
    (fun tab e => fun k =>
      if k = (e.buffSlot, e.channelId) then (c.resources e.proxyInfo).sizesFifo e.buffSlot
      else tab k)
    (fun _ => 0)

/-- Build the `rsrcs[NCCL_STEPS][MAXCHANNELS]` table of the batched drain:
each accumulated entry writes its resource index into cell
`(buffSlot, channelId)`; reading a never-written cell is undefined in the C
code and is `none` here. -/
def buildRsrcs (entries : List MemcpyInfoEntry) : Nat × Nat → Option Nat :=
  entries.foldl
    (fun tab e => fun k => if k = (e.buffSlot, e.channelId) then some e.proxyInfo else tab k)
    (fun _ => none)

/-- Body of the tracker-alias inner loop of a closed drain run (p2p.cc lines
806-810): cell `kk` of the run becomes a tracker alias of the run head's
event `(rIdx, iStart)`. -/
def trackFoldFn (nCh : Nat) (rsrcs : Nat × Nat → Option Nat) (rIdx iStart : Nat)
    (cc : Comm) (kk : Nat) : Except Unit Comm :=
  match rsrcs (kk / nCh, kk % nCh) with
  | none => .error ()
  | some rr =>
    match p2pMemcpyEventTrack cc.events (rr, kk / nCh) (rIdx, iStart) with
    | .error _ => .error ()
    | .ok ev => .ok { cc with events := ev }

/-- One cell `(i, j) = (k / nChannels, k % nChannels)` of the batched drain
scan (p2p.cc lines 767-827), at flat index `k`.  `cum` is
`some (cumStart, cumSize)` while a run of full-size slices is open
(`cumStart == -1` in C is `none` here).  A sub-full (or final) slice closes
the run: one merged copy spans the run, one event is recorded on the run's
first slice, and every other slice of the run (plus a non-empty terminating
slice) becomes a tracker alias of that event.  A slice larger than the step
size is an internal error. -/
def drainCell (nCh stepSize : Nat) (sizes : Nat × Nat → Nat) (rsrcs : Nat × Nat → Option Nat)
    (st : Comm × Option (Nat × Nat)) (k : Nat) : Except Unit (Comm × Option (Nat × Nat)) :=
  let c := st.1
  let i := k / nCh
  let j := k % nCh
  let size := sizes (i, j)
  if size < stepSize ∨ (size = stepSize ∧ k = NCCL_STEPS * nCh - 1) then
    match st.2 with
    | none =>
      if 0 < size then
        match rsrcs (i, j) with
        | none => .error ()
        | some rIdx =>
          let res := c.resources rIdx
          let c1 : Comm := { c with
            copies := c.copies ++
              [⟨res.recvFifo + res.offsets i, res.ceDevBuff + res.offsets i, size⟩],
            events := p2pMemcpyEventRecord c.events (rIdx, i) }
          .ok (c1, none)
      else .ok (c, none)
    | some (cumStart, cumSize) =>
      let iStart := cumStart / nCh
      let jStart := cumStart % nCh
      match rsrcs (iStart, jStart) with
      | none => .error ()
      | some rIdx =>
        let res := c.resources rIdx
        let c1 : Comm := { c with
          copies := c.copies ++
            [⟨res.recvFifo + res.offsets iStart, res.ceDevBuff + res.offsets iStart,
              cumSize + size⟩],
          events := p2pMemcpyEventRecord c.events (rIdx, iStart) }
        do
          let c2 ← (List.range' (cumStart + 1) (k - (cumStart + 1))).foldlM
            (trackFoldFn nCh rsrcs rIdx iStart) c1
          let c3 ←
            if 0 < size then
              match rsrcs (i, j) with
              | none => (.error () : Except Unit Comm)
              | some rr =>
                match p2pMemcpyEventTrack c2.events (rr, i) (rIdx, iStart) with
                | .error _ => .error ()
                | .ok ev => .ok { c2 with events := ev }
            else .ok c2
          .ok (c3, none)
  else if size = stepSize then
    match st.2 with
    | none => .ok (c, some (k, size))
    | some (cs, csz) => .ok (c, some (cs, csz + size))
  else .error ()

/-- Read accumulation list `memcpyInfo[bidx]`. -/
def memInfoOf (c : Comm) (b : Bool) : List MemcpyInfoEntry := if b then c.info1 else c.info0

/-- Reset accumulation list `memcpyInfo[bidx]` (the C code resets the count;
stale entries past the count are never read). -/
def resetMemInfo (c : Comm) (b : Bool) : Comm :=
  if b then { c with info1 := [] } else { c with info0 := [] }

/-- Drain one destination slot of the accumulation table: skip when empty,
otherwise build the per-slot/per-channel tables and scan all
`NCCL_STEPS * nChannels` cells in `(step, channel)` order, then reset the
slot's count. -/
def drainOne (c : Comm) (b : Bool) : Except Unit Comm :=
  let entries := memInfoOf c b
  if entries = [] then .ok c
  else do
    let sizes := buildSizes c entries
    let rsrcs := buildRsrcs entries
    let p ← (List.range (NCCL_STEPS * c.nChannels)).foldlM
      (drainCell c.nChannels c.stepSize sizes rsrcs) (c, (none : Option (Nat × Nat)))
    .ok (resetMemInfo p.1 b)

/-- The `ncclProxyOpReady` transition (p2p.cc lines 641-650): round each
sub-operation's base up from the persistent step cursor to the chunk
granularity and reset its `posted/transmitted/done` cursors, then enter
`Progress`. -/
def readyReset (s : State) : ProxyArgs :=
  if s.args.state = .ready then
    { s.args with
      subs := s.args.subs.map (fun sub =>
        { sub with
          base := roundUp ((s.comm.resources sub.resIdx).step) s.args.chunkSteps,
          posted := 0, transmitted := 0, done := 0 }),
      state := .progress }
  else s.args

/-- Per-sub-operation body of the batched progress pass: a sub-operation of a
protocol other than SIMPLE is completed immediately (p2p.cc lines 660-664);
otherwise the `done` drain loop runs, then the `transmitted` loop. -/
def subPassM (hw : EvKey → Bool) (qf slice protocol fuel : Nat) (c : Comm)
    (sub : ProxySubArgs) (d : Nat) : Except Unit (Comm × ProxySubArgs × Nat) :=
  if protocol ≠ NCCL_PROTO_SIMPLE then
    .ok (updRes c sub.resIdx (fun r => { r with step := sub.base + sub.nsteps }), sub, d + 1)
  else do
    let (c1, sub1, d1) ← doneLoopM hw qf slice fuel c sub d
    let (c2, sub2) ← transmittedLoopM slice fuel c1 sub1
    .ok (c2, sub2, d1)

/-- Scan all sub-operations in order, threading the comm state and the op's
done tally. -/
def subsPassM (hw : EvKey → Bool) (qf slice protocol fuel : Nat) :
    Comm → List ProxySubArgs → Nat → Except Unit (Comm × List ProxySubArgs × Nat)
  | c, [], d => .ok (c, [], d)
  | c, sub :: rest, d => do
    let (c1, sub1, d1) ← subPassM hw qf slice protocol fuel c sub d
    let (c2, rest2, d2) ← subsPassM hw qf slice protocol fuel c1 rest d1
    .ok (c2, sub1 :: rest2, d2)

/-- `p2pSendProxyProgress` with `MERGE_MEMCPY == 1` (the compiled
configuration): Ready transition, per-sub done/transmitted scans, op
completion check, and — on the last op of the chain — the batched drain of
both destination slots.  `hw` tells which hardware events are complete during
this call, `qf` bounds query recursion, `fuel` bounds the inner loops. -/
def p2pSendProxyProgressMerge (hw : EvKey → Bool) (qf fuel : Nat) (s : State) :
    Except Unit State := do
  let args1 := readyReset s
  let args2 := { args1 with idle := 1 }
  let (c3, args3) ←
    if args2.state = .progress then do
      let (c1, subs1, d1) ←
        subsPassM hw qf args2.sliceSteps args2.protocol fuel s.comm args2.subs args2.done
      let argsA := { args2 with subs := subs1, done := d1 }
      let argsB := if d1 = subs1.length then { argsA with state := .opNone } else argsA
      (.ok (c1, argsB) : Except Unit (Comm × ProxyArgs))
    else .ok (s.comm, args2)
  if args3.isLastInChain then do
    let c4 ← drainOne c3 false
    let c5 ← drainOne c4 true
    .ok { comm := c5, args := args3 }
  else .ok { comm := c3, args := args3 }

/-! ### The un-batched fallback path (`MERGE_MEMCPY == 0`) -/

/-- The `transmitted` loop of the fallback path (p2p.cc lines 687-723 with
`MERGE_MEMCPY == 0`): same window and producer-tail guards, but each slice
immediately issues one device-to-device copy of `sizesFifo[buffSlot]` bytes at
offset `buffSlot * stepSize` and records the slot's hardware event directly
(the raw `cudaEventRecord`/`cudaEventQuery` pair bypasses the tracker
bookkeeping, so the event arena is untouched). -/
def transmittedLoopS (stepSize slice : Nat) :
    Nat → Comm → ProxySubArgs → Except Unit (Comm × ProxySubArgs)
  | 0, _, _ => .error ()
  | fuel + 1, c, sub =>
    if sub.transmitted < sub.done + NCCL_STEPS ∧ sub.transmitted < sub.nsteps then
      let buffSlot := (sub.base + sub.transmitted) % NCCL_STEPS
      if sub.base + sub.transmitted < (c.resources sub.resIdx).ceTail then
        let res := c.resources sub.resIdx
        let size := res.sizesFifo buffSlot
        let c1 : Comm := { c with
          copies := c.copies ++
            [⟨res.recvFifo + buffSlot * stepSize, res.ceDevBuff + buffSlot * stepSize, size⟩] }
        transmittedLoopS stepSize slice fuel c1
          { sub with transmitted := sub.transmitted + slice }
      else .ok (c, sub)
    else .ok (c, sub)

/-- The `done` check of the fallback path (p2p.cc lines 724-739): at most one
slice per pass — poll the slot's hardware event directly; on completion
advance `done` one slice and republish the consumer-visible shared tail as
`base + done`; when `done` reaches `nsteps` persist the step cursor and bump
the op's done tally. -/
def doneOnceS (hw : EvKey → Bool) (slice : Nat) (c : Comm) (sub : ProxySubArgs) (d : Nat) :
    Comm × ProxySubArgs × Nat :=
  if sub.done < sub.transmitted then
    let buffSlot := (sub.base + sub.done) % NCCL_STEPS
    let p :=
      if hw (sub.resIdx, buffSlot) then
        (updRes c sub.resIdx (fun r => { r with shmTail := sub.base + (sub.done + slice) }),
         { sub with done := sub.done + slice })
      else (c, sub)
    if p.2.done = p.2.nsteps then
      (updRes p.1 sub.resIdx (fun r => { r with step := sub.base + sub.nsteps }), p.2, d + 1)
    else (p.1, p.2, d)
  else (c, sub, d)

/-- Per-sub-operation body of the fallback pass: non-SIMPLE short-circuit,
then the `transmitted` loop, then the single `done` check. -/
def subPassS (hw : EvKey → Bool) (stepSize slice protocol fuel : Nat) (c : Comm)
    (sub : ProxySubArgs) (d : Nat) : Except Unit (Comm × ProxySubArgs × Nat) :=
  if protocol ≠ NCCL_PROTO_SIMPLE then
    .ok (updRes c sub.resIdx (fun r => { r with step := sub.base + sub.nsteps }), sub, d + 1)
  else do
    let (c1, sub1) ← transmittedLoopS stepSize slice fuel c sub
    .ok (doneOnceS hw slice c1 sub1 d)

/-- Scan all sub-operations in order (fallback path). -/
def subsPassS (hw : EvKey → Bool) (stepSize slice protocol fuel : Nat) :
    Comm → List ProxySubArgs → Nat → Except Unit (Comm × List ProxySubArgs × Nat)
  | c, [], d => .ok (c, [], d)
  | c, sub :: rest, d => do
    let (c1, sub1, d1) ← subPassS hw stepSize slice protocol fuel c sub d
    let (c2, rest2, d2) ← subsPassS hw stepSize slice protocol fuel c1 rest d1
    .ok (c2, sub1 :: rest2, d2)

/-- `p2pSendProxyProgress` with `MERGE_MEMCPY == 0` (the un-batched fallback):
Ready transition and per-sub scans; there is no accumulation table and no
drain. -/
def p2pSendProxyProgressSimple (hw : EvKey → Bool) (fuel : Nat) (s : State) :
    Except Unit State := do
  let args1 := readyReset s
  let args2 := { args1 with idle := 1 }
  if args2.state = .progress then do
    let (c1, subs1, d1) ←
      subsPassS hw s.comm.stepSize args2.sliceSteps args2.protocol fuel s.comm args2.subs
        args2.done
    let argsA := { args2 with subs := subs1, done := d1 }
    let argsB := if d1 = subs1.length then { argsA with state := .opNone } else argsA
    .ok { comm := c1, args := argsB }
  else .ok { comm := s.comm, args := args2 }

/-! ### Reachability

The progress routine is driven by an external polling loop; between any two
invocations the producing GPU may publish more steps (raise `ceRecvMem->tail`
after writing the staging data and the `sizesFifo` entries).  Hardware-event
completion is chosen by the per-call oracle. -/

/-- A producer publication on one connection: `ceRecvMem->tail` grows
monotonically and `sizesFifo` entries may be rewritten. -/
inductive ProducerStep : State → State → Prop where
  | publish : ∀ (s : State) (r newTail : Nat) (newSizes : Nat → Nat),
      (s.comm.resources r).ceTail ≤ newTail →
      ProducerStep s
        ⟨updRes s.comm r (fun x => { x with ceTail := newTail, sizesFifo := newSizes }),
         s.args⟩

/-- States reachable from `s0` under the batched progress path interleaved
with producer publications. -/
inductive ReachM (s0 : State) : State → Prop where
  | refl : ReachM s0 s0
  | prog : ∀ (s s' : State) (hw : EvKey → Bool) (qf fuel : Nat),
      ReachM s0 s → p2pSendProxyProgressMerge hw qf fuel s = .ok s' → ReachM s0 s'
  | producer : ∀ (s s' : State), ReachM s0 s → ProducerStep s s' → ReachM s0 s'

/-- States reachable from `s0` under the un-batched fallback path interleaved
with producer publications. -/
inductive ReachS (s0 : State) : State → Prop where
  | refl : ReachS s0 s0
  | prog : ∀ (s s' : State) (hw : EvKey → Bool) (fuel : Nat),
      ReachS s0 s → p2pSendProxyProgressSimple hw fuel s = .ok s' → ReachS s0 s'
  | producer : ∀ (s s' : State), ReachS s0 s → ProducerStep s s' → ReachS s0 s'

/-- Well-formedness of an initial op state: the op is freshly enqueued
(`Ready`, zero done tally), slice granularity is positive and divides both the
ring depth and every sub-operation's total step count (as NCCL's step
accounting guarantees), every sub-operation has work to do, the
sub-operations' connections are pairwise distinct, and the protocol is the
copy-engine-using SIMPLE protocol. -/
structure InitOk (s : State) : Prop where
  stateReady : s.args.state = .ready
  doneZero : s.args.done = 0
  slicePos : 0 < s.args.sliceSteps
  sliceDvdSteps : s.args.sliceSteps ∣ NCCL_STEPS
  chunkPos : 0 < s.args.chunkSteps
  nstepsDvd : ∀ sub ∈ s.args.subs, s.args.sliceSteps ∣ sub.nsteps
  nstepsPos : ∀ sub ∈ s.args.subs, 0 < sub.nsteps
  resNodup : (s.args.subs.map (fun sub => sub.resIdx)).Nodup
  protoSimple : s.args.protocol = NCCL_PROTO_SIMPLE

/-! ### Setup-phase read-direction computation (claims about `p2pSendSetup` /
`p2pRecvSetup`) -/

/-- The read-direction part of `p2pGetInfo` (p2p.cc lines 273-282): the
topology hint is overridden by the `NCCL_P2P_READ_ENABLE` tunable unless that
tunable is `-2`. -/
def p2pGetInfoRead (topoRead readEnable : Int) : Int :=
  if readEnable ≠ -2 then readEnable else topoRead

/-- The value stored into `info->read` by `p2pSendSetup` (p2p.cc lines
312-322): the `p2pGetInfo` hint, zeroed when staged (CE) mode is active, and
zeroed for a graph-paired connection with connection index 1. -/
def p2pSendSetupRead (useMemcpy : Bool) (topoRead readEnable : Int) (graphNonNull : Bool)
    (connIndex : Nat) : Int :=
  let useRead := p2pGetInfoRead topoRead readEnable
  let useRead := if useMemcpy then 0 else useRead
  if graphNonNull ∧ connIndex = 1 then 0 else useRead

/-- The value stored into `info->read` by `p2pRecvSetup` (p2p.cc lines
367-376): the `p2pGetInfo` hint, zeroed for a graph-paired connection with
connection index 1.  (Unlike the send side, there is no
`if (useMemcpy) useRead = 0` in the receive-side source; the parameter is
kept to mirror the send-side signature.) -/
def p2pRecvSetupRead (useMemcpy : Bool) (topoRead readEnable : Int) (graphNonNull : Bool)
    (connIndex : Nat) : Int :=
  let _ := useMemcpy
  let useRead := p2pGetInfoRead topoRead readEnable
  if graphNonNull ∧ connIndex = 1 then 0 else useRead

/-! ### Capability probe (`p2pCanConnect`, p2p.cc lines 106-174) -/

/-- Process-wide state of the probe: the cached legacy-IPC result (the C
`static int legacyIPC`, `-1` = not yet probed, modelled as `none`) together
with an observational count of the probe's device-buffer allocations. -/
structure CanConnectSt where
  legacyIPC : Option Nat
  probeAllocs : Nat
deriving DecidableEq, Repr

/-- The initial process state: `legacyIPC = -1`, no probe allocation yet. -/
def canConnectInit : CanConnectSt := ⟨none, 0⟩

/-- One endpoint pair's externally determined facts, as seen by
`p2pCanConnect`. -/
structure PeerPairIn where
  sameHost : Bool
  topoP2p : Nat
  hasIntermediate : Bool
  bothVisible : Bool
  peerQueryOk : Bool
  canAccessPeer : Bool
  ipcHandleOk : Bool
deriving DecidableEq, Repr

/-- `p2pCanConnect`: reject cross-host/namespace pairs, consult topology
(rejecting indirect paths in staged mode), handle locally invisible devices
(modern runtime: capable), query native peer access, and — on a peer-capable
pair — run the one-time legacy-IPC probe: allocate a minimal device buffer,
try to export an IPC handle for it, cache the resulting capability for the
process lifetime.  Returns `*ret` and the updated process state. -/
def p2pCanConnect (useMemcpy : Bool) (st : CanConnectSt) (inp : PeerPairIn) :
    Nat × CanConnectSt :=
  if ¬inp.sameHost then (0, st)
  else if inp.topoP2p = 0 then (0, st)
  else if inp.hasIntermediate then (if useMemcpy then 0 else inp.topoP2p, st)
  else if ¬inp.bothVisible then (inp.topoP2p, st)
  else if ¬inp.peerQueryOk then (0, st)
  else if inp.canAccessPeer then
    match st.legacyIPC with
    | some v => (v, st)
    | none =>
      let ret := if inp.ipcHandleOk then inp.topoP2p else 0
      (ret, { legacyIPC := some ret, probeAllocs := st.probeAllocs + 1 })
  else (0, st)

/-- Fold a sequence of `p2pCanConnect` calls over the process state. -/
def p2pCanConnectRun (useMemcpy : Bool) : CanConnectSt → List PeerPairIn → CanConnectSt
  | st, [] => st
  | st, inp :: rest => p2pCanConnectRun useMemcpy (p2pCanConnect useMemcpy st inp).2 rest

/-- A call reaches the peer-access-capable branch (where the legacy-IPC cache
is consulted) when every earlier guard passes. -/
def reachesLegacyBranch (inp : PeerPairIn) : Prop :=
  inp.sameHost ∧ inp.topoP2p ≠ 0 ∧ ¬inp.hasIntermediate ∧ inp.bothVisible ∧
    inp.peerQueryOk ∧ inp.canAccessPeer

/-! ### Ref-counted shared staging buffer (`p2pSendProxySetup` lines 521-529,
`p2pSendProxyFree` lines 612-618, `MERGE_MEMCPY == 1`) -/

/-- Comm-wide staging-buffer state: `mem` is `comm->p2pProxySendMem != nullptr`,
`cnt` is `comm->p2pProxySendBuffCnt`; `allocs`/`frees` count the physical
`ncclCudaCalloc`/`cudaFree` calls observationally. -/
structure StagingBuf where
  mem : Bool
  cnt : Nat
  allocs : Nat
  frees : Nat
deriving DecidableEq, Repr

/-- The staging-buffer block of `p2pSendProxySetup` (staged mode): reuse the
existing allocation and increment the sharer count, or allocate once and set
the count to 1. -/
def p2pSendProxySetupStaging (st : StagingBuf) : StagingBuf :=
  if st.mem then { st with cnt := st.cnt + 1 }
  else { mem := true, cnt := 1, allocs := st.allocs + 1, frees := st.frees }

/-- The staging-buffer block of `p2pSendProxyFree` (staged mode), verbatim
from the source: `if (cnt > 1) { if (--cnt == 0) { cudaFree; mem = nullptr } }`. -/
def p2pSendProxyFreeStaging (st : StagingBuf) : StagingBuf :=
  if 1 < st.cnt then
    if st.cnt - 1 = 0 then { mem := false, cnt := 0, allocs := st.allocs, frees := st.frees + 1 }
    else { st with cnt := st.cnt - 1 }
  else st

/-! ### Free paths (claims about escalation of native teardown failures)

Each native teardown call gets a success/failure oracle.  The effect records
say which release steps were executed before the function returned; an
escalated failure is an `Except.error` carrying the partial effects. -/

/-- Oracle for `p2pSendFree`'s two `cudaIpcCloseMemHandle` calls. -/
structure SendFreeNative where
  closeSendIpc : Bool
  closeRecvIpc : Bool
deriving DecidableEq, Repr

/-- Which release steps of `p2pSendFree` ran. -/
structure SendFreeEff where
  closedSend : Bool
  closedRecv : Bool
  freedStruct : Bool
deriving DecidableEq, Repr

/-- `p2pSendFree` (p2p.cc lines 496-502): both IPC closes go through
`CUDACHECK`, so a failure returns immediately and the remaining release steps
(including `free(resources)`) do not run. -/
def p2pSendFree (hasSendIpc hasRecvIpc : Bool) (o : SendFreeNative) :
    Except SendFreeEff SendFreeEff :=
  if hasSendIpc ∧ ¬o.closeSendIpc then .error ⟨hasSendIpc, false, false⟩
  else if hasRecvIpc ∧ ¬o.closeRecvIpc then .error ⟨hasSendIpc, hasRecvIpc, false⟩
  else .ok ⟨hasSendIpc, hasRecvIpc, true⟩

/-- Oracle for `p2pRecvFree`'s native teardown calls. -/
structure RecvFreeNative where
  closeSendIpc : Bool
  closeRecvIpc : Bool
  shmClose : Bool
deriving DecidableEq, Repr

/-- Which release steps of `p2pRecvFree` ran. -/
structure RecvFreeEff where
  closedSend : Bool
  closedRecv : Bool
  shmClosed : Bool
  freedStruct : Bool
deriving DecidableEq, Repr

/-- `p2pRecvFree` (p2p.cc lines 504-513): IPC closes and (in staged mode) the
shared-memory close go through `CUDACHECK`/`NCCLCHECK`; any failure returns
immediately, skipping the remaining steps. -/
def p2pRecvFree (useMemcpy hasSendIpc hasRecvIpc : Bool) (o : RecvFreeNative) :
    Except RecvFreeEff RecvFreeEff :=
  if hasSendIpc ∧ ¬o.closeSendIpc then .error ⟨hasSendIpc, false, false, false⟩
  else if hasRecvIpc ∧ ¬o.closeRecvIpc then .error ⟨hasSendIpc, hasRecvIpc, false, false⟩
  else if useMemcpy ∧ ¬o.shmClose then .error ⟨hasSendIpc, hasRecvIpc, true, false⟩
  else .ok ⟨hasSendIpc, hasRecvIpc, useMemcpy, true⟩

/-- Oracle for `p2pSendProxyFree`'s native teardown calls. -/
structure SendProxyFreeNative where
  shmClose : Bool
  hostFree : Bool
  streamDestroy : Bool
  eventDestroy : Nat → Bool

/-- Which release steps of `p2pSendProxyFree` ran.  `eventsDestroyed` counts
how many of the `NCCL_STEPS` per-slot events were destroyed. -/
structure SendProxyFreeEff where
  shmClosed : Bool
  hostFreed : Bool
  streamDestroyed : Bool
  eventsDestroyed : Nat
  freedStruct : Bool
  rawBuffFreeIssued : Bool
deriving DecidableEq, Repr

/-- Index of the first event slot whose `cudaEventDestroy` fails, if any. -/
def firstEventFail (o : Nat → Bool) : Option Nat :=
  (List.range NCCL_STEPS).find? (fun i => ! o i)

/-- `p2pSendProxyFree` (p2p.cc lines 607-632).  Staged branch: shared-memory
close, host-buffer free, the ref-count block of `p2pSendProxyFreeStaging`,
stream destruction and the per-slot event destruction all go through
`NCCLCHECK`/`CUDACHECK`, so the first failure returns immediately with the
remaining steps skipped.  Non-staged branch: a single raw `cudaFree` whose
return code is deliberately ignored ("CUDA may have already shut down"). -/
def p2pSendProxyFree (useMemcpy : Bool) (st : StagingBuf) (o : SendProxyFreeNative) :
    Except (SendProxyFreeEff × StagingBuf) (SendProxyFreeEff × StagingBuf) :=
  if useMemcpy then
    if ¬o.shmClose then .error (⟨true, false, false, 0, false, false⟩, st)
    else if ¬o.hostFree then .error (⟨true, true, false, 0, false, false⟩, st)
    else
      let st1 := p2pSendProxyFreeStaging st
      if ¬o.streamDestroy then .error (⟨true, true, true, 0, false, false⟩, st1)
      else
        match firstEventFail o.eventDestroy with
        | some i => .error (⟨true, true, true, i, false, false⟩, st1)
        | none => .ok (⟨true, true, true, NCCL_STEPS, true, false⟩, st1)
  else .ok (⟨false, false, false, 0, false, true⟩, st)

/-- `p2pRecvProxyFree` (p2p.cc lines 634-638): a single raw `cudaFree` whose
return code is deliberately ignored; the call never escalates, whatever the
native outcome. -/
def p2pRecvProxyFree (freeOutcome : Bool) : Except Unit Bool :=
  let _ := freeOutcome
  .ok true

/-! ### Invariant predicates and concrete instances used by the theorems -/

/-- The probe-allocation invariant of the capability probe: at most one probe
allocation ever, and none while the legacy cache is still empty. -/
def CanConnectSt.Bounded (st : CanConnectSt) : Prop :=
  st.probeAllocs ≤ 1 ∧ (st.legacyIPC = none → st.probeAllocs = 0)

/-- The event store obtained from fresh nodes by a successful `Track 0 1`
(node 0 tracks node 1; both resolved, so 0 is not registered in 1's
trackers). -/
def evC3 : EvStore Nat :=
  match p2pMemcpyEventTrack (fun _ : Nat => p2pMemcpyEventCreate) 0 1 with
  | .ok st => st
  | .error _ => fun _ => p2pMemcpyEventCreate

/-- The relationship `Track(a, b)` establishes between tracker `a` and target
`b`: `a` tracks `b`, `b` tracks nobody (tracking depth one), `a`'s resolved
flag mirrors `b`'s, and an unresolved `a` is registered in `b`'s tracker set. -/
def TracksRel (st : EvStore Nat) (a b : Nat) : Prop :=
  (st a).tracking = some b ∧ (st b).tracking = none ∧
    ((st a).flag = true → (st b).flag = true) ∧
    ((st a).flag = false → a ∈ (st b).trackers)

/-- A concrete resource for witness instances: fresh cursors, full-size
(4-byte) producer slices, distinct pointer identities, contiguous per-slot
offsets. -/
def wRes : ProxyRes := ⟨0, 0, 0, fun _ => 4, 100, 200, fun i => 4 * i⟩

/-- A concrete single-connection comm for witness instances. -/
def wComm : Comm :=
  { nChannels := 1, stepSize := 4, resources := fun _ => wRes,
    events := fun _ => p2pMemcpyEventCreate,
    dstBase0 := none, dstBase1 := none, info0 := [], info1 := [],
    copies := [], polls := [] }

/-- A concrete sub-operation (connection 0, channel 0, 8 steps) for witness
instances. -/
def wSub : ProxySubArgs := ⟨0, 0, 8, 0, 0, 0, 0⟩

/-- A concrete freshly enqueued op of the given protocol for witness
instances. -/
def wArgs (proto : Nat) : ProxyArgs :=
  { state := .ready, subs := [wSub], done := 0, idle := 0, sliceSteps := 1,
    chunkSteps := 1, protocol := proto, isLastInChain := true }

/-- A concrete initial progress-engine state for witness instances. -/
def wState (proto : Nat) : State := ⟨wComm, wArgs proto⟩

/-- A comm whose two drain-destination slots are already claimed by pointers
other than connection 0's `recvFifo`, with one producer step published
(used to witness the table-overflow error). -/
def wComm9 : Comm :=
  { wComm with
      resources := fun _ => { wRes with ceTail := 1 }
      dstBase0 := some 7
      dstBase1 := some 8 }

/-- A mid-Progress state whose next accumulation must overflow the
destination table. -/
def wState9 : State :=
  ⟨wComm9, { wArgs NCCL_PROTO_SIMPLE with state := .progress }⟩

/-- Fields of the comm state that a drain cell never changes: the resource
table, both destination-base slots, both accumulation lists, and the
configuration. -/
def CommFrame (c c' : Comm) : Prop :=
  c'.resources = c.resources ∧ c'.dstBase0 = c.dstBase0 ∧ c'.dstBase1 = c.dstBase1 ∧
    c'.info0 = c.info0 ∧ c'.info1 = c.info1 ∧ c'.nChannels = c.nChannels ∧
    c'.stepSize = c.stepSize

/-- What one run of the batched `done` drain loop does to the state:
`done` advances (slice-aligned, at most to `transmitted`), the tail is
republished as `base + done` exactly when `done` advanced, only the
sub-operation's own resource is touched (and only its `shmTail`/`step`
fields), the accumulation table and copy log stay, and the op's done tally
counts exactly the crossing of `nsteps`. -/
structure DoneLoopPost (slice : Nat) (c : Comm) (sub : ProxySubArgs) (d : Nat)
    (c' : Comm) (sub' : ProxySubArgs) (d' : Nat) : Prop where
  resIdx_eq : sub'.resIdx = sub.resIdx
  channelId_eq : sub'.channelId = sub.channelId
  nsteps_eq : sub'.nsteps = sub.nsteps
  base_eq : sub'.base = sub.base
  posted_eq : sub'.posted = sub.posted
  trans_eq : sub'.transmitted = sub.transmitted
  done_le : sub.done ≤ sub'.done
  done_bound : sub'.done ≤ sub.transmitted
  done_dvd : slice ∣ sub'.done
  frame : ∀ r, r ≠ sub.resIdx → c'.resources r = c.resources r
  ceTail_eq : (c'.resources sub.resIdx).ceTail = (c.resources sub.resIdx).ceTail
  sizes_eq : (c'.resources sub.resIdx).sizesFifo = (c.resources sub.resIdx).sizesFifo
  recvFifo_eq : (c'.resources sub.resIdx).recvFifo = (c.resources sub.resIdx).recvFifo
  ceDevBuff_eq : (c'.resources sub.resIdx).ceDevBuff = (c.resources sub.resIdx).ceDevBuff
  offsets_eq : (c'.resources sub.resIdx).offsets = (c.resources sub.resIdx).offsets
  tail_adv : sub.done < sub'.done → (c'.resources sub.resIdx).shmTail = sub.base + sub'.done
  tail_same : sub'.done = sub.done →
    (c'.resources sub.resIdx).shmTail = (c.resources sub.resIdx).shmTail
  dst0_eq : c'.dstBase0 = c.dstBase0
  dst1_eq : c'.dstBase1 = c.dstBase1
  info0_eq : c'.info0 = c.info0
  info1_eq : c'.info1 = c.info1
  copies_eq : c'.copies = c.copies
  nch_eq : c'.nChannels = c.nChannels
  ss_eq : c'.stepSize = c.stepSize
  count_eq : d' = d + (if sub.done < sub.nsteps ∧ sub'.done = sub.nsteps then 1 else 0)

/-- What one run of the `transmitted` loop does to the state: only
`transmitted` moves (it grows), and on the comm only the accumulation table
(destination slots and entry lists) changes. -/
structure TransLoopPost (c : Comm) (sub : ProxySubArgs) (c' : Comm)
    (sub' : ProxySubArgs) : Prop where
  resIdx_eq : sub'.resIdx = sub.resIdx
  channelId_eq : sub'.channelId = sub.channelId
  nsteps_eq : sub'.nsteps = sub.nsteps
  base_eq : sub'.base = sub.base
  posted_eq : sub'.posted = sub.posted
  done_eq : sub'.done = sub.done
  trans_le : sub.transmitted ≤ sub'.transmitted
  res_eq : c'.resources = c.resources
  events_eq : c'.events = c.events
  polls_eq : c'.polls = c.polls
  copies_eq : c'.copies = c.copies
  nch_eq : c'.nChannels = c.nChannels
  ss_eq : c'.stepSize = c.stepSize

/-- Per-sub cursor bounds of the progress engine: `done ≤ transmitted ≤
done + NCCL_STEPS`, `transmitted ≤ nsteps`, both cursors slice-aligned. -/
def SubBounds (slice : Nat) (sub : ProxySubArgs) : Prop :=
  sub.done ≤ sub.transmitted ∧ sub.transmitted ≤ sub.done + NCCL_STEPS ∧
    sub.transmitted ≤ sub.nsteps ∧ slice ∣ sub.done ∧ slice ∣ sub.transmitted

/-- Tail-republication invariant: once `done` has advanced, the
consumer-visible shared tail of the sub-operation's connection reads
`base + done`. -/
def SubTail (c : Comm) (sub : ProxySubArgs) : Prop :=
  0 < sub.done → (c.resources sub.resIdx).shmTail = sub.base + sub.done

/-- Number of finished sub-operations (`done == nsteps`). -/
def countFinished (subs : List ProxySubArgs) : Nat :=
  subs.countP (fun sub => sub.done == sub.nsteps)

/-- The reachability invariant of the progress engine, relative to the
initial op state `s0`: configuration fields are stable, the sub list keeps
its length; while the op is still `Ready` nothing has changed; once it has
left `Ready`, every sub-operation carries its identity fields, its base is
the chunk-rounded initial step cursor of its connection, its cursors satisfy
`SubBounds` and its consumer-visible tail satisfies `SubTail`, and the op's
done tally equals the number of finished sub-operations. -/
structure ProgressInv (s0 s : State) : Prop where
  slice_eq : s.args.sliceSteps = s0.args.sliceSteps
  chunk_eq : s.args.chunkSteps = s0.args.chunkSteps
  proto_eq : s.args.protocol = s0.args.protocol
  len_eq : s.args.subs.length = s0.args.subs.length
  ready_args : s.args.state = .ready → s.args = s0.args
  ready_step : s.args.state = .ready →
    ∀ r, (s.comm.resources r).step = (s0.comm.resources r).step
  run_subs : s.args.state ≠ .ready →
    ∀ (i : Nat) (a b : ProxySubArgs), s.args.subs[i]? = some a →
      s0.args.subs[i]? = some b →
      a.resIdx = b.resIdx ∧ a.nsteps = b.nsteps ∧ a.channelId = b.channelId ∧
      a.base = roundUp ((s0.comm.resources b.resIdx).step) s0.args.chunkSteps ∧
      SubBounds s0.args.sliceSteps a ∧ SubTail s.comm a
  run_count : s.args.state ≠ .ready → s.args.done = countFinished s.args.subs

/-- A single-slice (nsteps = 1) freshly enqueued op used by the end-to-end
witness runs of both progress paths. -/
def wC1s0 : State :=
  ⟨wComm,
   { state := .ready, subs := [⟨0, 0, 1, 0, 0, 0, 0⟩], done := 0, idle := 0,
     sliceSteps := 1, chunkSteps := 1, protocol := NCCL_PROTO_SIMPLE,
     isLastInChain := true }⟩

/-- The witness op after the producer publishes one full-size slice. -/
def wC1pub : State :=
  ⟨updRes wC1s0.comm 0 (fun x => { x with ceTail := 1, sizesFifo := fun _ => 4 }),
   wC1s0.args⟩

/-- The witness op after one batched progress pass (slice accumulated,
merged copy issued and event recorded by the drain). -/
def wC1m1 : State :=
  match p2pSendProxyProgressMerge (fun _ => true) 4 12 wC1pub with
  | .ok s => s
  | .error _ => wC1pub

/-- The witness op after the second batched progress pass (event resolved,
tail republished, op complete). -/
def wC1m2 : State :=
  match p2pSendProxyProgressMerge (fun _ => true) 4 12 wC1m1 with
  | .ok s => s
  | .error _ => wC1m1

/-- The witness op after one un-batched (fallback) progress pass (copy
issued, event immediately complete, tail republished, op complete). -/
def wC1t1 : State :=
  match p2pSendProxyProgressSimple (fun _ => true) 12 wC1pub with
  | .ok s => s
  | .error _ => wC1pub

/-! ## Theorems -/

/-! ### Claim C7: read-direction forcing in the Setup entry points -/

/-- Claim C7, counterexample: in the receive-side Setup entry point, staged
(CE) mode does **not** force the read flag to 0 — with `useMemcpy = true`, a
read-enable tunable of 1 and connection index 0, `p2pRecvSetup` stores
`read = 1`.  The claimed forcing exists only in `p2pSendSetup`
(`if (useMemcpy) useRead = 0;` has no counterpart in `p2pRecvSetup`). -/
theorem claim7_counterexample : p2pRecvSetupRead true 0 1 true 0 ≠ 0 := by decide

/-- Claim C7, amended: staged (CE) mode forces the read flag to 0 in the
send-side Setup only (regardless of the topology hint and of the read-enable
tunable); a graph-paired connection with connection index 1 forces the read
flag to 0 in both entry points; the receive-side Setup otherwise stores the
unforced `p2pGetInfo` hint even in staged mode. -/
theorem claim7_amended_read_forcing :
    (∀ (tr re : Int) (g : Bool) (ci : Nat), p2pSendSetupRead true tr re g ci = 0) ∧
    (∀ (um : Bool) (tr re : Int), p2pSendSetupRead um tr re true 1 = 0) ∧
    (∀ (um : Bool) (tr re : Int), p2pRecvSetupRead um tr re true 1 = 0) ∧
    (∀ (um : Bool) (tr re : Int) (g : Bool) (ci : Nat), ¬(g = true ∧ ci = 1) →
      p2pRecvSetupRead um tr re g ci = p2pGetInfoRead tr re) := by
  refine ⟨fun tr re g ci => ?_, fun um tr re => ?_, fun um tr re => ?_,
    fun um tr re g ci h => ?_⟩
  · unfold p2pSendSetupRead
    split <;> simp_all
  · unfold p2pSendSetupRead
    split <;> simp_all
  · unfold p2pRecvSetupRead
    simp
  · unfold p2pRecvSetupRead
    simp only []
    split
    · rename_i hg
      exact absurd ⟨hg.1, hg.2⟩ h
    · rfl

/-- Witness for the amended claim C7 at concrete inputs. -/
theorem claim7_amended_read_forcing_witness :
    p2pRecvSetupRead false 1 (-2) false 0 = p2pGetInfoRead 1 (-2) :=
  claim7_amended_read_forcing.2.2.2 false 1 (-2) false 0 (by decide)

/-! ### Claim C8: the legacy-IPC probe runs at most once per process -/

/-- After one `p2pCanConnect` call the process state is either unchanged or
(when the legacy cache was empty and the call probed) freshly cached with one
more probe allocation. -/
theorem p2pCanConnect_state_cases (um : Bool) (st : CanConnectSt) (inp : PeerPairIn) :
    (p2pCanConnect um st inp).2 = st ∨
      (st.legacyIPC = none ∧
        (p2pCanConnect um st inp).2 =
          ⟨some (p2pCanConnect um st inp).1, st.probeAllocs + 1⟩) := by
  unfold p2pCanConnect
  repeat' split
  all_goals simp_all

/-- The invariant is preserved by any call. -/
theorem p2pCanConnect_bounded (um : Bool) (st : CanConnectSt) (inp : PeerPairIn)
    (h : st.Bounded) : (p2pCanConnect um st inp).2.Bounded := by
  rcases p2pCanConnect_state_cases um st inp with hc | ⟨hnone, hc⟩
  · rw [hc]; exact h
  · rw [hc]
    have h0 := h.2 hnone
    exact ⟨by simp [h0], fun hx => by simp at hx⟩

/-- The invariant is preserved by any call sequence. -/
theorem p2pCanConnectRun_bounded (um : Bool) :
    ∀ (inps : List PeerPairIn) (st : CanConnectSt), st.Bounded →
      (p2pCanConnectRun um st inps).Bounded := by
  intro inps
  induction inps with
  | nil => intro st h; exact h
  | cons inp rest ih =>
    intro st h
    exact ih _ (p2pCanConnect_bounded um st inp h)

/-- Claim C8: across every sequence of capability-probe calls within one
process, the legacy IPC handle probe allocates its minimal device buffer at
most once; and every call that reaches the peer-access-capable branch while
the result is cached returns exactly the cached value and leaves the process
state (in particular the allocation count) untouched. -/
theorem claim8_legacy_probe_once :
    (∀ (um : Bool) (inps : List PeerPairIn),
      (p2pCanConnectRun um canConnectInit inps).probeAllocs ≤ 1) ∧
    (∀ (um : Bool) (st : CanConnectSt) (inp : PeerPairIn) (v : Nat),
      st.legacyIPC = some v → reachesLegacyBranch inp →
      p2pCanConnect um st inp = (v, st)) := by
  constructor
  · intro um inps
    exact (p2pCanConnectRun_bounded um inps canConnectInit ⟨by decide, fun _ => rfl⟩).1
  · intro um st inp v hv hbr
    obtain ⟨h1, h2, h3, h4, h5, h6⟩ := hbr
    unfold p2pCanConnect
    rw [if_neg (by simpa using h1), if_neg h2, if_neg (by simpa using h3),
      if_neg (by simpa using h4), if_neg (by simpa using h5), if_pos (by simpa using h6), hv]

/-- Witness for claim C8 at concrete inputs. -/
theorem claim8_legacy_probe_once_witness :
    p2pCanConnect false ⟨some 1, 1⟩ ⟨true, 1, false, true, true, true, true⟩ =
      (1, ⟨some 1, 1⟩) :=
  claim8_legacy_probe_once.2 false ⟨some 1, 1⟩ ⟨true, 1, false, true, true, true, true⟩ 1 rfl
    ⟨rfl, by decide, by decide, rfl, rfl, rfl⟩

/-! ### Claim C5: ref-counted staging buffer release -/

/-- After `n ≥ 1` staged Setup calls the shared staging buffer has been
allocated exactly once and the sharer count is `n`. -/
theorem setupStaging_iter (n : Nat) (h : 1 ≤ n) :
    p2pSendProxySetupStaging^[n] ⟨false, 0, 0, 0⟩ = ⟨true, n, 1, 0⟩ := by
  induction n with
  | zero => omega
  | succ k ih =>
    rcases Nat.eq_or_lt_of_le h with h1 | h1
    · simp [← h1, p2pSendProxySetupStaging]
    · rw [Function.iterate_succ_apply', ih (by omega)]
      simp [p2pSendProxySetupStaging]

/-- `n` staged Free calls starting from `k ≥ 1` sharers only drive the count
down to 1 and never perform the physical `cudaFree` (the guard `cnt > 1`
makes the `--cnt == 0` branch unreachable). -/
theorem freeStaging_iter (n : Nat) :
    ∀ k : Nat, 1 ≤ k →
      p2pSendProxyFreeStaging^[n] ⟨true, k, 1, 0⟩ = ⟨true, max (k - n) 1, 1, 0⟩ := by
  induction n with
  | zero => intro k hk; simp; omega
  | succ m ih =>
    intro k hk
    rw [Function.iterate_succ_apply]
    rcases Nat.lt_or_ge 1 k with h1 | h1
    · rw [show p2pSendProxyFreeStaging ⟨true, k, 1, 0⟩ = ⟨true, k - 1, 1, 0⟩ by
        unfold p2pSendProxyFreeStaging
        dsimp only
        rw [if_pos h1, if_neg (by omega)]]
      rw [ih (k - 1) (by omega)]
      congr 1
      omega
    · have hk1 : k = 1 := by omega
      rw [show p2pSendProxyFreeStaging ⟨true, k, 1, 0⟩ = ⟨true, k, 1, 0⟩ by
        unfold p2pSendProxyFreeStaging
        dsimp only
        rw [if_neg (by omega)]]
      rw [ih k hk]
      congr 1
      omega

/-- Claim C5 (the code contradicts it): for every `n ≥ 1`, after `n` staged
Setup calls followed by their `n` matching Free calls, the shared staging
device buffer was physically allocated exactly once and each additional
sharer only incremented the reference count (the first two parts of the claim
hold) — but the buffer is **still allocated** and was **never physically
released**: `p2pSendProxyFree`'s guard `if (cnt > 1)` makes the inner
`if (--cnt == 0) cudaFree` branch unreachable, so the count bottoms out at 1
and `cudaFree` never runs, where the claim requires release exactly at the
last Free. -/
theorem claim5_staging_never_freed (n : Nat) (h : 1 ≤ n) :
    p2pSendProxyFreeStaging^[n] (p2pSendProxySetupStaging^[n] ⟨false, 0, 0, 0⟩) =
      ⟨true, 1, 1, 0⟩ := by
  rw [setupStaging_iter n h, freeStaging_iter n n h]
  congr 1
  omega

/-- Witness for claim C5 at `n = 2`: two sharers set up and freed, buffer
still resident (`mem = true`), zero physical frees. -/
theorem claim5_staging_never_freed_witness :
    p2pSendProxyFreeStaging^[2] (p2pSendProxySetupStaging^[2] ⟨false, 0, 0, 0⟩) =
      ⟨true, 1, 1, 0⟩ :=
  claim5_staging_never_freed 2 (by decide)

/-! ### Claim C6: teardown failures on the Free paths -/

/-- Claim C6, counterexample: in `p2pSendFree`, a failing
`cudaIpcCloseMemHandle` on the send-side mapping **is** escalated
(`CUDACHECK` returns the error to the caller) and the remaining release steps
— the receive-side close and `free(resources)` — do not run, contradicting
the claim that no Free-path failure is escalated and cleanup always proceeds. -/
theorem claim6_counterexample :
    p2pSendFree true true ⟨false, true⟩ = .error ⟨true, false, false⟩ := rfl

/-- Claim C6, amended: only the receive-side proxy Free and the non-staged
branch of the send-side proxy Free are best-effort (their raw `cudaFree`
ignores the native outcome and the call never escalates); the connector Free
paths (`p2pSendFree`, `p2pRecvFree`) and the staged branch of
`p2pSendProxyFree` escalate the first native teardown failure and skip every
remaining release step — whichever call fails first.  Stated as a complete
characterisation: for every path and every choice of first failing native
call (send-side IPC close, receive-side IPC close, shared-memory close,
host-buffer free, stream destruction, any per-slot event destruction), the
call escalates with exactly the earlier release steps performed and
`free(resources)` skipped; and when no native call fails, every release step
(including `free(resources)`) runs. -/
theorem claim6_amended_free_paths :
    (∀ b : Bool, p2pRecvProxyFree b = .ok true) ∧
    (∀ (st : StagingBuf) (o : SendProxyFreeNative),
      p2pSendProxyFree false st o = .ok (⟨false, false, false, 0, false, true⟩, st)) ∧
    (∀ (hr : Bool) (o : SendFreeNative), o.closeSendIpc = false →
      p2pSendFree true hr o = .error ⟨true, false, false⟩) ∧
    (∀ (hs : Bool) (o : SendFreeNative), (hs = true → o.closeSendIpc = true) →
      o.closeRecvIpc = false → p2pSendFree hs true o = .error ⟨hs, true, false⟩) ∧
    (∀ (hs hr : Bool) (o : SendFreeNative), (hs = true → o.closeSendIpc = true) →
      (hr = true → o.closeRecvIpc = true) → p2pSendFree hs hr o = .ok ⟨hs, hr, true⟩) ∧
    (∀ (um hr : Bool) (o : RecvFreeNative), o.closeSendIpc = false →
      p2pRecvFree um true hr o = .error ⟨true, false, false, false⟩) ∧
    (∀ (um hs : Bool) (o : RecvFreeNative), (hs = true → o.closeSendIpc = true) →
      o.closeRecvIpc = false →
      p2pRecvFree um hs true o = .error ⟨hs, true, false, false⟩) ∧
    (∀ (hs hr : Bool) (o : RecvFreeNative), (hs = true → o.closeSendIpc = true) →
      (hr = true → o.closeRecvIpc = true) → o.shmClose = false →
      p2pRecvFree true hs hr o = .error ⟨hs, hr, true, false⟩) ∧
    (∀ (um hs hr : Bool) (o : RecvFreeNative), (hs = true → o.closeSendIpc = true) →
      (hr = true → o.closeRecvIpc = true) → (um = true → o.shmClose = true) →
      p2pRecvFree um hs hr o = .ok ⟨hs, hr, um, true⟩) ∧
    (∀ (st : StagingBuf) (o : SendProxyFreeNative), o.shmClose = false →
      p2pSendProxyFree true st o = .error (⟨true, false, false, 0, false, false⟩, st)) ∧
    (∀ (st : StagingBuf) (o : SendProxyFreeNative), o.shmClose = true →
      o.hostFree = false →
      p2pSendProxyFree true st o = .error (⟨true, true, false, 0, false, false⟩, st)) ∧
    (∀ (st : StagingBuf) (o : SendProxyFreeNative), o.shmClose = true →
      o.hostFree = true → o.streamDestroy = false →
      p2pSendProxyFree true st o =
        .error (⟨true, true, true, 0, false, false⟩, p2pSendProxyFreeStaging st)) ∧
    (∀ (st : StagingBuf) (o : SendProxyFreeNative) (i : Nat), o.shmClose = true →
      o.hostFree = true → o.streamDestroy = true →
      firstEventFail o.eventDestroy = some i →
      p2pSendProxyFree true st o =
        .error (⟨true, true, true, i, false, false⟩, p2pSendProxyFreeStaging st)) ∧
    (∀ (st : StagingBuf) (o : SendProxyFreeNative), o.shmClose = true →
      o.hostFree = true → o.streamDestroy = true →
      firstEventFail o.eventDestroy = none →
      p2pSendProxyFree true st o =
        .ok (⟨true, true, true, NCCL_STEPS, true, false⟩, p2pSendProxyFreeStaging st)) := by
  refine ⟨fun b => rfl, fun st o => rfl, ?_, ?_, ?_, ?_, ?_, ?_, ?_, ?_, ?_, ?_, ?_, ?_⟩
  · intro hr o h
    simp [p2pSendFree, h]
  · intro hs o h1 h2
    cases hs
    · simp [p2pSendFree, h2]
    · simp [p2pSendFree, h1 rfl, h2]
  · intro hs hr o h1 h2
    cases hs <;> cases hr <;> simp_all [p2pSendFree]
  · intro um hr o h
    simp [p2pRecvFree, h]
  · intro um hs o h1 h2
    cases hs
    · simp [p2pRecvFree, h2]
    · simp [p2pRecvFree, h1 rfl, h2]
  · intro hs hr o h1 h2 h3
    cases hs <;> cases hr <;> simp_all [p2pRecvFree]
  · intro um hs hr o h1 h2 h3
    cases um <;> cases hs <;> cases hr <;> simp_all [p2pRecvFree]
  · intro st o h
    simp [p2pSendProxyFree, h]
  · intro st o h1 h2
    simp [p2pSendProxyFree, h1, h2]
  · intro st o h1 h2 h3
    simp [p2pSendProxyFree, h1, h2, h3]
  · intro st o i h1 h2 h3 h4
    simp [p2pSendProxyFree, h1, h2, h3, h4]
  · intro st o h1 h2 h3 h4
    simp [p2pSendProxyFree, h1, h2, h3, h4]

/-- Witness for the amended claim C6 at concrete inputs, one per path, each
with the failure at a call later than the first: the receive-side IPC close
failing in `p2pSendFree`, the shared-memory close failing in `p2pRecvFree`,
and the slot-3 event destruction failing in the staged `p2pSendProxyFree`
(slots 0-2 destroyed, slots 4-7 and `free(resources)` skipped, the sharer
count already decremented). -/
theorem claim6_amended_free_paths_witness :
    p2pSendFree true true ⟨true, false⟩ = .error ⟨true, true, false⟩ ∧
    p2pRecvFree true true true ⟨true, true, false⟩ = .error ⟨true, true, true, false⟩ ∧
    p2pSendProxyFree true ⟨true, 2, 1, 0⟩ ⟨true, true, true, fun i => i != 3⟩ =
      .error (⟨true, true, true, 3, false, false⟩, ⟨true, 1, 1, 0⟩) :=
  ⟨claim6_amended_free_paths.2.2.2.1 true ⟨true, false⟩ (fun _ => rfl) rfl,
   claim6_amended_free_paths.2.2.2.2.2.2.2.1 true true ⟨true, true, false⟩
     (fun _ => rfl) (fun _ => rfl) rfl,
   claim6_amended_free_paths.2.2.2.2.2.2.2.2.2.2.2.2.1 ⟨true, 2, 1, 0⟩
     ⟨true, true, true, fun i => i != 3⟩ 3 rfl rfl rfl rfl⟩

/-! ### Claim C4: `Track` failure conditions and the `Untrack` postcondition -/

/-- Claim C4, counterexample: `Untrack` does **not** always leave the node
resolved.  A node that was recorded (armed, `flag = 0`) and has no tracked
target is left entirely untouched by `Untrack` — in particular still
unresolved — where the claim requires `flag` set after any `Untrack` on any
node in any state. -/
theorem claim4_counterexample :
    (p2pMemcpyEventUntrack (p2pMemcpyEventRecord (fun _ : Nat => p2pMemcpyEventCreate) 0) 0) 0 =
      ⟨false, none, []⟩ := rfl

/-- Claim C4, amended: `Track(e, t)` fails when `t` already has a tracked
target of its own and fails when `e`'s trackers set is non-empty; `Untrack`
always leaves the node detached, leaves it resolved whenever it **had** a
tracked target, and leaves a node with no tracked target entirely unchanged
(in particular an unresolved detached node stays unresolved). -/
theorem claim4_amended_track_untrack :
    (∀ (st : EvStore Nat) (e t : Nat), (st t).tracking ≠ none →
      p2pMemcpyEventTrack st e t = .error ()) ∧
    (∀ (st : EvStore Nat) (e t : Nat), (st e).trackers ≠ [] →
      p2pMemcpyEventTrack st e t = .error ()) ∧
    (∀ (st : EvStore Nat) (e : Nat), ((p2pMemcpyEventUntrack st e) e).tracking = none) ∧
    (∀ (st : EvStore Nat) (e : Nat), (st e).tracking ≠ none →
      ((p2pMemcpyEventUntrack st e) e).flag = true) ∧
    (∀ (st : EvStore Nat) (e : Nat), (st e).tracking = none →
      p2pMemcpyEventUntrack st e = st) := by
  refine ⟨fun st e t ht => ?_, fun st e t he => ?_, fun st e => ?_, fun st e he => ?_,
    fun st e he => ?_⟩
  · unfold p2pMemcpyEventTrack
    rw [if_pos ht]
  · unfold p2pMemcpyEventTrack
    by_cases ht : (st t).tracking ≠ none
    · rw [if_pos ht]
    · rw [if_neg ht, if_pos he]
  · unfold p2pMemcpyEventUntrack
    cases htr : (st e).tracking with
    | none => exact htr
    | some t =>
      by_cases hf : (st e).flag = false
      · simp [hf, evUpdate]
      · simp [hf, evUpdate]
  · unfold p2pMemcpyEventUntrack
    cases htr : (st e).tracking with
    | none => exact absurd htr he
    | some t =>
      by_cases hf : (st e).flag = false
      · simp [hf, evUpdate]
      · simp [evUpdate, hf]
  · unfold p2pMemcpyEventUntrack
    rw [he]

/-- Witness for the amended claim C4 at concrete inputs: tracking a node that
itself tracks another fails, and `Untrack` on a fresh detached node is the
identity. -/
theorem claim4_amended_track_untrack_witness :
    p2pMemcpyEventTrack (fun _ : Nat => ⟨true, some 2, []⟩) 0 1 = .error () ∧
    p2pMemcpyEventUntrack (fun _ : Nat => p2pMemcpyEventCreate) 0 =
      (fun _ : Nat => p2pMemcpyEventCreate) :=
  ⟨claim4_amended_track_untrack.1 (fun _ => ⟨true, some 2, []⟩) 0 1 (by simp),
   claim4_amended_track_untrack.2.2.2.2 (fun _ => p2pMemcpyEventCreate) 0 rfl⟩

/-! ### Claim C3: `Query` through a tracker alias -/

/-- Claim C3, counterexample: start from fresh nodes, let node 0 successfully
track node 1 (node 1 is resolved, so node 0 mirrors `flag = 1` and is not
registered), then `Record` node 1 (an operation on `b`, which the claim's
side condition does not exclude — it only excludes `Record`/`Untrack` on `a`).
Node 0 still tracks node 1, yet with no hardware event complete `Query(0)`
returns true while `Query(1)` returns false, refuting the claimed
equivalence. -/
theorem claim3_counterexample :
    (evC3 0).tracking = some 1 ∧
    (p2pMemcpyEventQuery (fun _ : Nat => false) 2 (p2pMemcpyEventRecord evC3 1) 0).map
        (fun x => x.1) = .ok true ∧
    (p2pMemcpyEventQuery (fun _ : Nat => false) 2 (p2pMemcpyEventRecord evC3 1) 1).map
        (fun x => x.1) = .ok false :=
  ⟨rfl, rfl, rfl⟩

/-- For a node with no tracked target, the query result does not depend on
the (positive) fuel. -/
theorem query_untracked_eq (hw : Nat → Bool) (st : EvStore Nat) (b : Nat)
    (hb : (st b).tracking = none) (f g : Nat) (hf : 1 ≤ f) (hg : 1 ≤ g) :
    p2pMemcpyEventQuery hw f st b = p2pMemcpyEventQuery hw g st b := by
  obtain ⟨f1, rfl⟩ : ∃ f1, f = f1 + 1 := ⟨f - 1, by omega⟩
  obtain ⟨g1, rfl⟩ : ∃ g1, g = g1 + 1 := ⟨g - 1, by omega⟩
  unfold p2pMemcpyEventQuery
  rw [hb]

/-- A query of a node with no tracked target always succeeds (with positive
fuel). -/
theorem query_untracked_ok (hw : Nat → Bool) (st : EvStore Nat) (b : Nat)
    (hb : (st b).tracking = none) (f : Nat) (hf : 1 ≤ f) :
    ∃ r st' polled, p2pMemcpyEventQuery hw f st b = .ok (r, st', polled) := by
  obtain ⟨f1, rfl⟩ : ∃ f1, f = f1 + 1 := ⟨f - 1, by omega⟩
  unfold p2pMemcpyEventQuery
  by_cases hfl : (st b).flag = true
  · exact ⟨true, st, [], by rw [if_pos hfl]⟩
  · rw [if_neg hfl, hb]
    by_cases hhw : hw b
    · exact ⟨true, _, [b], by rw [if_pos hhw]⟩
    · exact ⟨false, st, [b], by rw [if_neg hhw]⟩

/-- Propagation fold of `Query`/`Record`: each listed tracker's flag is set,
every other node is untouched. -/
theorem foldl_setFlag (l : List Nat) : ∀ (st : EvStore Nat) (x : Nat),
    l.foldl (fun acc tr => evUpdate acc tr { acc tr with flag := true }) st x =
      if x ∈ l then { st x with flag := true } else st x := by
  induction l with
  | nil => intro st x; simp
  | cons t ts ih =>
    intro st x
    rw [List.foldl_cons, ih]
    by_cases hx : x ∈ ts
    · rw [if_pos hx, if_pos (by simp [hx])]
      by_cases hxt : x = t
      · subst hxt; simp [evUpdate]
      · simp [evUpdate, hxt]
    · rw [if_neg hx]
      by_cases hxt : x = t
      · subst hxt; simp [evUpdate]
      · simp [evUpdate, hxt, hx]

/-- What a successful query tells us about a polled node `b`: `b` was the
(single) poll site, it had no tracked target; if `b`'s hardware event is
complete the resulting store has `b` and all of `b`'s registered trackers
resolved, monotonically over already-resolved flags; if it is not complete
the store is unchanged. -/
theorem query_polled_spec (hw : Nat → Bool) :
    ∀ (qf : Nat) (st : EvStore Nat) (c : Nat) (r : Bool) (st' : EvStore Nat)
      (polled : List Nat) (b : Nat),
      p2pMemcpyEventQuery hw qf st c = .ok (r, st', polled) → b ∈ polled →
      (st b).tracking = none ∧
      (hw b = true →
        (st' b).flag = true ∧ (∀ x ∈ (st b).trackers, (st' x).flag = true) ∧
        (∀ x, (st x).flag = true → (st' x).flag = true)) ∧
      (hw b = false → st' = st) := by
  intro qf
  induction qf with
  | zero => intro st c r st' polled b h _; exact absurd h (by simp [p2pMemcpyEventQuery])
  | succ n ih =>
    intro st c r st' polled b h hb
    rw [p2pMemcpyEventQuery] at h
    by_cases hfl : (st c).flag = true
    · rw [if_pos hfl] at h
      simp at h
      obtain ⟨_, _, hp⟩ := h
      subst hp
      exact absurd hb (by simp)
    · rw [if_neg hfl] at h
      cases htr : (st c).tracking with
      | some t =>
        rw [htr] at h
        exact ih st t r st' polled b h hb
      | none =>
        rw [htr] at h
        by_cases hhw : hw c
        · rw [if_pos hhw] at h
          simp at h
          obtain ⟨hr, hst, hp⟩ := h
          subst hp
          simp at hb
          subst hb
          refine ⟨htr, fun _ => ?_, fun hf => absurd hhw (by simp [hf])⟩
          rw [← hst]
          refine ⟨?_, ?_, ?_⟩
          · simp [evUpdate]
          · intro x hx
            by_cases hxb : x = b
            · subst hxb; simp [evUpdate]
            · simp [evUpdate, hxb, foldl_setFlag, hx]
          · intro x hx
            by_cases hxb : x = b
            · subst hxb; simp [evUpdate]
            · simp only [evUpdate, if_neg hxb, foldl_setFlag]
              split <;> simp [hx]
        · rw [if_neg hhw] at h
          simp at h
          obtain ⟨hr, hst, hp⟩ := h
          subst hp
          simp at hb
          subst hb
          exact ⟨htr, fun hf => absurd hf (by simp [hhw]), fun _ => hst.symm⟩

/-- Claim C3, amended: let `a` track `b` in the sense the successful
`Track(a, b)` establishes and operations other than `Record`/`Untrack` on `a`
and `Record`/`Track` on `b` preserve (`a`'s tracked target is `b`, `b` tracks
nobody, `a`'s resolved flag mirrors `b`'s, an unresolved `a` is registered in
`b`'s trackers) — the original claim's side condition must additionally
exclude re-arming `b`, cf. the counterexample.  Then `Query(a)` returns true
iff `Query(b)` would, and once `b`'s hardware event is complete and observed
by any query that polls `b`, a subsequent `Query(a)` returns true polling no
hardware event at all (in particular not `a`'s own). -/
theorem claim3_amended_query_alias (st : EvStore Nat) (hw : Nat → Bool) (a b : Nat)
    (qf : Nat) (hrel : TracksRel st a b) (hqf : 2 ≤ qf) :
    (∃ r sa pa, p2pMemcpyEventQuery hw qf st a = .ok (r, sa, pa) ∧
      ∃ sb pb, p2pMemcpyEventQuery hw qf st b = .ok (r, sb, pb)) ∧
    (∀ (c : Nat) (r : Bool) (st' : EvStore Nat) (polled : List Nat),
      hw b = true → p2pMemcpyEventQuery hw qf st c = .ok (r, st', polled) → b ∈ polled →
      p2pMemcpyEventQuery hw qf st' a = .ok (true, st', [])) := by
  obtain ⟨hab, hbt, hflag, htrk⟩ := hrel
  constructor
  · by_cases hfl : (st a).flag = true
    · refine ⟨true, st, [], ?_, st, [], ?_⟩
      · obtain ⟨q1, rfl⟩ : ∃ q1, qf = q1 + 1 := ⟨qf - 1, by omega⟩
        rw [p2pMemcpyEventQuery, if_pos hfl]
      · obtain ⟨q1, rfl⟩ : ∃ q1, qf = q1 + 1 := ⟨qf - 1, by omega⟩
        rw [p2pMemcpyEventQuery, if_pos (hflag hfl)]
    · obtain ⟨q2, rfl⟩ : ∃ q2, qf = q2 + 2 := ⟨qf - 2, by omega⟩
      obtain ⟨r, sb, polled, hq⟩ := query_untracked_ok hw st b hbt (q2 + 1) (by omega)
      refine ⟨r, sb, polled, ?_, sb, polled, ?_⟩
      · rw [p2pMemcpyEventQuery, if_neg hfl, hab]
        exact hq
      · rw [query_untracked_eq hw st b hbt (q2 + 2) (q2 + 1) (by omega) (by omega), hq]
  · intro c r st' polled hhw hq hbp
    obtain ⟨-, hres, -⟩ := query_polled_spec hw qf st c r st' polled b hq hbp
    obtain ⟨hbf, htrf, hmono⟩ := hres hhw
    have haf : (st' a).flag = true := by
      by_cases hfl : (st a).flag = true
      · exact hmono a hfl
      · exact htrf a (htrk (by simpa using hfl))
    obtain ⟨q1, rfl⟩ : ∃ q1, qf = q1 + 1 := ⟨qf - 1, by omega⟩
    rw [p2pMemcpyEventQuery, if_pos haf]

/-- Witness for the amended claim C3 at concrete inputs (the store produced
by a successful `Track 0 1`, all hardware events complete). -/
theorem claim3_amended_query_alias_witness :
    ∃ r sa pa, p2pMemcpyEventQuery (fun _ : Nat => true) 2 evC3 0 = .ok (r, sa, pa) ∧
      ∃ sb pb, p2pMemcpyEventQuery (fun _ : Nat => true) 2 evC3 1 = .ok (r, sb, pb) :=
  (claim3_amended_query_alias evC3 (fun _ => true) 0 1 2
    ⟨rfl, rfl, fun _ => rfl, fun h => absurd h (by decide)⟩ (by omega)).1

/-! ### Claim C10: non-SIMPLE sub-operations complete immediately -/

/-- Reduction of the `Except` monad's bind at an `ok` value. -/
theorem exceptBind_ok {e a b : Type} (x : a) (f : a -> Except e b) :
    (Except.ok x >>= f) = f x := rfl

/-- Reduction of the `Except` monad's bind at an `error` value. -/
theorem exceptBind_err {e a b : Type} (x : e) (f : a -> Except e b) :
    ((Except.error x : Except e a) >>= f) = Except.error x := rfl

/-- In a `Nodup` list, the element at index `i` does not occur again later. -/
theorem nodup_not_mem_drop {α : Type} (l : List α) (h : l.Nodup) :
    ∀ (i : Nat) (x : α), l[i]? = some x → x ∉ l.drop (i + 1) := by
  induction l with
  | nil => intro i x hx; simp at hx
  | cons a as ih =>
    intro i x hx
    rw [List.nodup_cons] at h
    cases i with
    | zero =>
      simp at hx
      subst hx
      simpa using h.1
    | succ j =>
      simp only [List.getElem?_cons_succ] at hx
      simpa using ih h.2 j x hx

/-- A sub-operation scan under a protocol other than SIMPLE: every
sub-operation is completed immediately — the step cursor of its resource is
persisted at `base + nsteps` and the done tally is bumped — and nothing else
happens: no event change, no copy, no poll, no accumulation, no tail update,
and the sub list itself comes back unchanged. -/
theorem subsPassM_nonSimple (hw : EvKey → Bool) (qf slice proto fuel : Nat)
    (hp : proto ≠ NCCL_PROTO_SIMPLE) :
    ∀ (subs : List ProxySubArgs) (c : Comm) (d : Nat),
    ∃ c', subsPassM hw qf slice proto fuel c subs d = .ok (c', subs, d + subs.length) ∧
      c'.events = c.events ∧ c'.copies = c.copies ∧ c'.polls = c.polls ∧
      c'.dstBase0 = c.dstBase0 ∧ c'.dstBase1 = c.dstBase1 ∧
      c'.info0 = c.info0 ∧ c'.info1 = c.info1 ∧
      c'.nChannels = c.nChannels ∧ c'.stepSize = c.stepSize ∧
      (∀ r, (c'.resources r).shmTail = (c.resources r).shmTail) ∧
      (∀ r, (c'.resources r).ceTail = (c.resources r).ceTail) ∧
      (∀ r, r ∉ subs.map (fun s2 => s2.resIdx) → c'.resources r = c.resources r) ∧
      (∀ i sub, subs[i]? = some sub →
        sub.resIdx ∉ (subs.drop (i + 1)).map (fun s2 => s2.resIdx) →
        (c'.resources sub.resIdx).step = sub.base + sub.nsteps) := by
  intro subs
  induction subs with
  | nil =>
    intro c d
    refine ⟨c, ?_, rfl, rfl, rfl, rfl, rfl, rfl, rfl, rfl, rfl,
      fun r => rfl, fun r => rfl, fun r _ => rfl, fun i sub hx _ => by simp at hx⟩
    simp [subsPassM]
  | cons sub rest ih =>
    intro c d
    set c1 := updRes c sub.resIdx (fun r => { r with step := sub.base + sub.nsteps }) with hc1
    obtain ⟨c', hrun, hev, hcp, hpl, hd0, hd1, hi0, hi1, hnc, hss, hsh, hce, hfr, hstep⟩ :=
      ih c1 (d + 1)
    refine ⟨c', ?_, ?_, ?_, ?_, ?_, ?_, ?_, ?_, ?_, ?_, ?_, ?_, ?_, ?_⟩
    · have harith : d + (sub :: rest).length = d + 1 + rest.length := by
        simp [List.length_cons]
        omega
      rw [harith]
      have hsp : subPassM hw qf slice proto fuel c sub d = .ok (c1, sub, d + 1) := by
        unfold subPassM
        rw [if_pos hp]
      simp only [subsPassM, hsp, exceptBind_ok, hrun]
    · rw [hev]; rfl
    · rw [hcp]; rfl
    · rw [hpl]; rfl
    · rw [hd0]; rfl
    · rw [hd1]; rfl
    · rw [hi0]; rfl
    · rw [hi1]; rfl
    · rw [hnc]; rfl
    · rw [hss]; rfl
    · intro r
      rw [hsh r, hc1]
      simp only [updRes]
      split <;> rfl
    · intro r
      rw [hce r, hc1]
      simp only [updRes]
      split <;> rfl
    · intro r hr
      simp only [List.map_cons, List.mem_cons] at hr
      push_neg at hr
      rw [hfr r (by simpa using hr.2), hc1]
      simp only [updRes]
      rw [if_neg hr.1]
    · intro i s2 hs2 hnm
      cases i with
      | zero =>
        simp only [List.getElem?_cons_zero, Option.some.injEq] at hs2
        subst hs2
        simp only [List.drop_succ_cons, List.drop_zero] at hnm
        rw [hfr sub.resIdx hnm, hc1]
        simp [updRes]
      | succ j =>
        simp only [List.getElem?_cons_succ] at hs2
        simp only [List.drop_succ_cons] at hnm
        exact hstep j s2 hs2 hnm


/-- Claim C10: on the first Progress pass (Ready state, zero done tally) with
a protocol other than the copy-engine-using SIMPLE protocol, every
sub-operation is completed immediately: each connection's persistent step
cursor becomes `base + nsteps` (with `base` the chunk-rounded step cursor)
and the op's done tally reaches the sub count (so the op leaves the Progress
state), while no copy is issued, no event is polled or changed, and no
consumer-visible tail is republished. -/
theorem claim10_non_simple_immediate (s : State) (hw : EvKey → Bool) (qf fuel : Nat)
    (hready : s.args.state = .ready) (hproto : s.args.protocol ≠ NCCL_PROTO_SIMPLE)
    (hdone : s.args.done = 0)
    (hinfo0 : s.comm.info0 = []) (hinfo1 : s.comm.info1 = [])
    (hnd : (s.args.subs.map (fun sub => sub.resIdx)).Nodup) :
    ∃ s', p2pSendProxyProgressMerge hw qf fuel s = .ok s' ∧
      s'.args.done = s.args.subs.length ∧ s'.args.state = .opNone ∧
      s'.comm.events = s.comm.events ∧ s'.comm.copies = s.comm.copies ∧
      s'.comm.polls = s.comm.polls ∧
      (∀ r, (s'.comm.resources r).shmTail = (s.comm.resources r).shmTail) ∧
      (∀ (i : Nat) (sub : ProxySubArgs), s.args.subs[i]? = some sub →
        (s'.comm.resources sub.resIdx).step =
          roundUp ((s.comm.resources sub.resIdx).step) s.args.chunkSteps + sub.nsteps) := by
  set reset := fun sub : ProxySubArgs =>
    { sub with
      base := roundUp ((s.comm.resources sub.resIdx).step) s.args.chunkSteps,
      posted := 0, transmitted := 0, done := 0 } with hreset
  have hmapid : (s.args.subs.map reset).map (fun s2 => s2.resIdx) =
      s.args.subs.map (fun s2 => s2.resIdx) := by
    rw [List.map_map]
    rfl
  have hargs1 : readyReset s =
      { s.args with subs := s.args.subs.map reset, state := .progress } := by
    rw [readyReset, if_pos hready]
  obtain ⟨c', hrun, hev, hcp, hpl, hd0, hd1, hi0, hi1, hnc, hss, hsh, hce, hfr, hstep⟩ :=
    subsPassM_nonSimple hw qf s.args.sliceSteps s.args.protocol fuel hproto
      (s.args.subs.map reset) s.comm 0
  have hlen : (s.args.subs.map reset).length = s.args.subs.length := by
    simp [List.length_map]
  refine ⟨⟨c',
    { s.args with
        subs := s.args.subs.map reset
        state := ProxyOpState.opNone
        idle := 1
        done := s.args.subs.length }⟩,
    ?_, rfl, rfl, by simpa using hev,
    by simpa using hcp, by simpa using hpl, fun r => by simpa using hsh r, ?_⟩
  · have hdrain0 : drainOne c' false = .ok c' := by
      unfold drainOne
      rw [show memInfoOf c' false = [] by simp [memInfoOf, hi0, hinfo0]]
      simp
    have hdrain1 : drainOne c' true = .ok c' := by
      unfold drainOne
      rw [show memInfoOf c' true = [] by simp [memInfoOf, hi1, hinfo1]]
      simp
    unfold p2pSendProxyProgressMerge
    rw [hargs1]
    dsimp only
    rw [if_pos rfl, hdone, hrun]
    dsimp only [exceptBind_ok]
    rw [Nat.zero_add, if_pos rfl]
    dsimp only [exceptBind_ok]
    by_cases hlast : s.args.isLastInChain
    · rw [if_pos hlast, hdrain0]
      dsimp only [exceptBind_ok]
      rw [hdrain1]
      dsimp only [exceptBind_ok]
      rw [hlen]
    · rw [if_neg hlast]
      rw [hlen]
  · intro i sub hi
    have hi2 : (s.args.subs.map reset)[i]? = some (reset sub) := by
      rw [List.getElem?_map, hi]
      rfl
    have hnm : (reset sub).resIdx ∉
        ((s.args.subs.map reset).drop (i + 1)).map (fun s2 => s2.resIdx) := by
      rw [← List.map_drop, List.map_map]
      have := nodup_not_mem_drop (s.args.subs.map (fun s2 => s2.resIdx)) hnd i sub.resIdx
        (by rw [List.getElem?_map, hi]; rfl)
      rw [← List.map_drop] at this
      simpa using this
    have := hstep i (reset sub) hi2 hnm
    simpa using this

/-- Witness for claim C10 at a concrete input: protocol 0 (LL) on a fresh
single-sub op. -/
theorem claim10_non_simple_immediate_witness :
    ∃ s', p2pSendProxyProgressMerge (fun _ => true) 2 9 (wState 0) = .ok s' ∧
      s'.args.done = (wState 0).args.subs.length ∧ s'.args.state = .opNone ∧
      s'.comm.events = (wState 0).comm.events ∧ s'.comm.copies = (wState 0).comm.copies ∧
      s'.comm.polls = (wState 0).comm.polls ∧
      (∀ r, (s'.comm.resources r).shmTail = ((wState 0).comm.resources r).shmTail) ∧
      (∀ (i : Nat) (sub : ProxySubArgs), (wState 0).args.subs[i]? = some sub →
        (s'.comm.resources sub.resIdx).step =
          roundUp (((wState 0).comm.resources sub.resIdx).step) ((wState 0).args.chunkSteps) +
            sub.nsteps) :=
  claim10_non_simple_immediate (wState 0) (fun _ => true) 2 9 rfl (by decide) rfl rfl rfl
    (by decide)

/-! ### Claim C9: overflow of the two-slot drain destination table -/

/-- Claim C9: in a batched progress pass, when a slice is ready to be
accumulated (SIMPLE protocol, window open, producer tail published past
`base + transmitted`) but its destination buffer matches neither of the two
`memcpyDstBase` slots and both are already claimed by distinct other base
pointers, the progress routine aborts with an internal error instead of
accumulating the slice. -/
theorem claim9_dst_table_overflow_error (s : State) (hw : EvKey → Bool) (qf fuel : Nat)
    (sub : ProxySubArgs) (p0 p1 : Nat)
    (hstate : s.args.state = .progress) (hproto : s.args.protocol = NCCL_PROTO_SIMPLE)
    (hsubs : s.args.subs = [sub])
    (hdt : sub.done = sub.transmitted)
    (hwin : sub.transmitted < sub.done + NCCL_STEPS)
    (hns : sub.transmitted < sub.nsteps)
    (htail : sub.base + sub.transmitted < (s.comm.resources sub.resIdx).ceTail)
    (hd0 : s.comm.dstBase0 = some p0) (hd1 : s.comm.dstBase1 = some p1)
    (hp0 : (s.comm.resources sub.resIdx).recvFifo ≠ p0)
    (hp1 : (s.comm.resources sub.resIdx).recvFifo ≠ p1) :
    p2pSendProxyProgressMerge hw qf (fuel + 1) s = .error () := by
  have hready : s.args.state ≠ .ready := by rw [hstate]; intro h; cases h
  have hargs1 : readyReset s = s.args := by rw [readyReset, if_neg hready]
  have hdl : doneLoopM hw qf s.args.sliceSteps (fuel + 1) s.comm sub s.args.done =
      .ok (s.comm, sub, s.args.done) := by
    rw [doneLoopM, if_neg (by omega)]
  have hpick : pickDst s.comm (s.comm.resources sub.resIdx).recvFifo = none := by
    rw [pickDst, hd0]
    dsimp only
    rw [if_neg (fun h => hp0 h.symm), hd1]
    dsimp only
    rw [if_neg (fun h => hp1 h.symm)]
  have htl : transmittedLoopM s.args.sliceSteps (fuel + 1) s.comm sub = .error () := by
    rw [transmittedLoopM, if_pos ⟨hwin, hns⟩, if_pos htail, hpick]
  have hsp : subPassM hw qf s.args.sliceSteps s.args.protocol (fuel + 1) s.comm sub
      s.args.done = .error () := by
    unfold subPassM
    rw [if_neg (by rw [hproto]; exact fun h => h rfl)]
    rw [hdl]
    dsimp only [exceptBind_ok]
    rw [htl]
    rfl
  unfold p2pSendProxyProgressMerge
  rw [hargs1]
  dsimp only
  rw [if_pos (by rw [hstate]), hsubs]
  simp only [subsPassM, hsp]
  rfl

/-- Witness for claim C9 at a concrete input: both destination slots claimed
by pointers 7 and 8, connection 0's `recvFifo` is 100. -/
theorem claim9_dst_table_overflow_error_witness :
    p2pSendProxyProgressMerge (fun _ => true) 2 (8 + 1) wState9 = .error () :=
  claim9_dst_table_overflow_error wState9 (fun _ => true) 2 8 wSub 7 8 rfl rfl rfl rfl
    (by decide) (by decide) (by decide) rfl rfl (by decide) (by decide)

/-! ### Claims C1 and C2: the progress-engine invariants and the
batched/un-batched end-state equivalence -/

/-- Between two multiples of `k`, there is room for one more `k`. -/
theorem dvd_lt_add_le {k a b : Nat} (hk : 0 < k) (ha : k ∣ a) (hb : k ∣ b) (h : a < b) :
    a + k ≤ b := by
  have : k ∣ b - a := Nat.dvd_sub' hb ha
  have hba : 0 < b - a := by omega
  have := Nat.le_of_dvd hba this
  omega

/-- Any predicate preserved by each step of an `Except`-valued fold is
preserved by the fold. -/
theorem foldlM_except_inv {α β : Type} (P : β → Prop) (f : β → α → Except Unit β)
    (hf : ∀ b a b2, f b a = .ok b2 → P b → P b2) :
    ∀ (l : List α) (b b2 : β), l.foldlM f b = .ok b2 → P b → P b2 := by
  intro l
  induction l with
  | nil =>
    intro b b2 h hp
    simp only [List.foldlM_nil] at h
    cases h
    exact hp
  | cons a rest ih =>
    intro b b2 h hp
    rw [List.foldlM_cons] at h
    cases hfa : f b a with
    | error e =>
      rw [hfa, exceptBind_err] at h
      cases h
    | ok mid =>
      rw [hfa, exceptBind_ok] at h
      exact ih mid b2 h (hf b a mid hfa hp)

/-- Characterisation of a successful `Except` bind. -/
theorem exceptBind_ok_iff {e a b : Type} (x : Except e a) (f : a → Except e b) (y : b) :
    (x >>= f) = .ok y ↔ ∃ v, x = .ok v ∧ f v = .ok y := by
  cases x with
  | error z =>
    rw [exceptBind_err]
    simp
  | ok v =>
    rw [exceptBind_ok]
    simp

/-- `CommFrame` is reflexive. -/
theorem CommFrame.refl (c : Comm) : CommFrame c c :=
  ⟨rfl, rfl, rfl, rfl, rfl, rfl, rfl⟩

/-- `CommFrame` is transitive. -/
theorem CommFrame.trans {a b c : Comm} (h1 : CommFrame a b) (h2 : CommFrame b c) :
    CommFrame a c := by
  obtain ⟨x1, x2, x3, x4, x5, x6, x7⟩ := h1
  obtain ⟨y1, y2, y3, y4, y5, y6, y7⟩ := h2
  exact ⟨y1.trans x1, y2.trans x2, y3.trans x3, y4.trans x4, y5.trans x5, y6.trans x6,
    y7.trans x7⟩

/-- One tracker-alias step only changes the event arena. -/
theorem trackFoldFn_frame (nCh : Nat) (rsrcs : Nat × Nat → Option Nat) (rIdx iStart : Nat)
    (cc : Comm) (kk : Nat) (cc2 : Comm)
    (h : trackFoldFn nCh rsrcs rIdx iStart cc kk = .ok cc2) : CommFrame cc cc2 := by
  unfold trackFoldFn at h
  split at h
  · cases h
  · split at h
    · cases h
    · cases h
      exact ⟨rfl, rfl, rfl, rfl, rfl, rfl, rfl⟩

/-- The tracker-alias fold of a closed run only changes the event arena. -/
theorem trackFold_frame (nCh : Nat) (rsrcs : Nat × Nat → Option Nat) (rIdx iStart : Nat)
    (l : List Nat) (cc cc2 : Comm)
    (h : l.foldlM (trackFoldFn nCh rsrcs rIdx iStart) cc = .ok cc2) : CommFrame cc cc2 :=
  foldlM_except_inv (CommFrame cc) (trackFoldFn nCh rsrcs rIdx iStart)
    (fun b a b2 hb hp => hp.trans (trackFoldFn_frame nCh rsrcs rIdx iStart b a b2 hb))
    l cc cc2 h (CommFrame.refl cc)

/-- One drain cell only changes the event arena, the copy log and the run
accumulator. -/
theorem drainCell_frame (nCh ss : Nat) (sizes : Nat × Nat → Nat)
    (rsrcs : Nat × Nat → Option Nat) (st : Comm × Option (Nat × Nat))
    (k : Nat) (p : Comm × Option (Nat × Nat))
    (h : drainCell nCh ss sizes rsrcs st k = .ok p) : CommFrame st.1 p.1 := by
  unfold drainCell at h
  dsimp only at h
  repeat' split at h
  all_goals try (cases h)
  all_goals try (exact CommFrame.refl _)
  all_goals try (exact ⟨rfl, rfl, rfl, rfl, rfl, rfl, rfl⟩)
  all_goals
    (rw [exceptBind_ok_iff] at h
     obtain ⟨c2, hfold, h⟩ := h
     have hf0 := trackFold_frame _ _ _ _ _ _ _ hfold
     have hf1 : CommFrame st.1 c2 := CommFrame.trans ⟨rfl, rfl, rfl, rfl, rfl, rfl, rfl⟩ hf0
     repeat' split at h
     all_goals try (rw [exceptBind_err] at h; cases h)
     all_goals (rw [exceptBind_ok] at h; cases h)
     all_goals try (exact hf1)
     all_goals exact hf1.trans ⟨rfl, rfl, rfl, rfl, rfl, rfl, rfl⟩)

/-- A whole drain pass of one destination slot leaves the resource table and
both destination-base slots untouched (it resets the slot's accumulation
list). -/
theorem drainOne_frame (c : Comm) (b : Bool) (c' : Comm) (h : drainOne c b = .ok c') :
    c'.resources = c.resources ∧ c'.dstBase0 = c.dstBase0 ∧ c'.dstBase1 = c.dstBase1 ∧
      c'.nChannels = c.nChannels ∧ c'.stepSize = c.stepSize := by
  unfold drainOne at h
  dsimp only at h
  split at h
  · cases h
    exact ⟨rfl, rfl, rfl, rfl, rfl⟩
  · rw [exceptBind_ok_iff] at h
    obtain ⟨p, hp, h⟩ := h
    have hfr : CommFrame c p.1 :=
      foldlM_except_inv (fun q => CommFrame c q.1)
        (drainCell c.nChannels c.stepSize (buildSizes c (memInfoOf c b)) (buildRsrcs (memInfoOf c b)))
        (fun q a q2 hq hinv =>
          hinv.trans (drainCell_frame _ _ _ _ q a q2 hq))
        _ _ _ hp (CommFrame.refl c)
    cases h
    obtain ⟨x1, x2, x3, -, -, x6, x7⟩ := hfr
    cases b
    · exact ⟨x1, x2, x3, x6, x7⟩
    · exact ⟨x1, x2, x3, x6, x7⟩

/-- `DoneLoopPost` composes along intermediate states (given the window
precondition `transmitted ≤ nsteps`). -/
theorem donePost_comp {slice : Nat} {c cm c' : Comm} {sub subm sub' : ProxySubArgs}
    {d dm d' : Nat} (hts : sub.transmitted ≤ sub.nsteps)
    (h1 : DoneLoopPost slice c sub d cm subm dm)
    (h2 : DoneLoopPost slice cm subm dm c' sub' d') :
    DoneLoopPost slice c sub d c' sub' d' := by
  obtain ⟨a1, a2, a3, a4, a5, a6, a7, a8, a9, a10, a11, a12, a13, a14, a15, a16, a17,
    a18, a19, a20, a21, a22, a23, a24, a25⟩ := h1
  obtain ⟨b1, b2, b3, b4, b5, b6, b7, b8, b9, b10, b11, b12, b13, b14, b15, b16, b17,
    b18, b19, b20, b21, b22, b23, b24, b25⟩ := h2
  rw [a1] at b10 b11 b12 b13 b14 b15 b16 b17
  rw [a4] at b16
  rw [a6] at b8
  rw [a3] at b25
  refine ⟨b1.trans a1, b2.trans a2, b3.trans a3, b4.trans a4, b5.trans a5, b6.trans a6,
    a7.trans b7, b8, b9, ?_, b11.trans a11, b12.trans a12, b13.trans a13, b14.trans a14,
    b15.trans a15, ?_, ?_, b18.trans a18, b19.trans a19, b20.trans a20, b21.trans a21,
    b22.trans a22, b23.trans a23, b24.trans a24, ?_⟩
  · intro r hrne
    exact (b10 r hrne).trans (a10 r hrne)
  · intro hlt
    rcases Nat.lt_or_ge subm.done sub'.done with hcase | hcase
    · exact b16 hcase
    · have hsd : sub'.done = subm.done := by omega
      rw [b17 hsd, a16 (by omega), hsd]
  · intro he
    have h1e : subm.done = sub.done := by omega
    rw [b17 (by omega), a17 h1e]
  · split_ifs at a25 b25 ⊢ <;> omega

/-- Specification of the batched `done` drain loop. -/
theorem doneLoopM_spec (hw : EvKey → Bool) (qf slice : Nat) (hs : 0 < slice) :
    ∀ (fuel : Nat) (c : Comm) (sub : ProxySubArgs) (d : Nat) (c' : Comm)
      (sub' : ProxySubArgs) (d' : Nat),
      doneLoopM hw qf slice fuel c sub d = .ok (c', sub', d') →
      slice ∣ sub.done → slice ∣ sub.transmitted → sub.done ≤ sub.transmitted →
      sub.transmitted ≤ sub.nsteps →
      DoneLoopPost slice c sub d c' sub' d' := by
  intro fuel
  induction fuel with
  | zero =>
    intro c sub d c' sub' d' h _ _ _ _
    exact absurd h (by simp [doneLoopM])
  | succ f ih =>
    intro c sub d c' sub' d' h hdd hdt hle hts
    rw [doneLoopM] at h
    by_cases hg : sub.done < sub.transmitted
    · rw [if_pos hg] at h
      dsimp only at h
      have hdn : sub.done < sub.nsteps := by omega
      cases hq : p2pMemcpyEventQuery hw qf c.events
          (sub.resIdx, (sub.base + sub.done) % NCCL_STEPS) with
      | error e =>
        rw [hq] at h
        cases h
      | ok res3 =>
        obtain ⟨result, ev1, polled⟩ := res3
        rw [hq] at h
        dsimp only at h
        cases result with
        | false =>
          rw [if_neg (by simp)] at h
          rw [if_neg (by omega)] at h
          cases h
          refine ⟨rfl, rfl, rfl, rfl, rfl, rfl, Nat.le_refl _, hle, hdd,
            fun r _ => rfl, rfl, rfl, rfl, rfl, rfl, ?_, fun _ => rfl, rfl, rfl, rfl,
            rfl, rfl, rfl, rfl, ?_⟩
          · intro hcon
            omega
          · rw [if_neg (by omega)]
            rfl
        | true =>
          rw [if_pos rfl] at h
          try dsimp only at h
          have hd1 : sub.done + slice ≤ sub.transmitted := dvd_lt_add_le hs hdd hdt hg
          by_cases hn : sub.done + slice = sub.nsteps
          · rw [if_pos hn] at h
            try dsimp only at h
            have hrest := ih _ _ _ _ _ _ h (Dvd.dvd.add hdd dvd_rfl) hdt hd1 hts
            refine donePost_comp hts ?_ hrest
            refine ⟨rfl, rfl, rfl, rfl, rfl, rfl, Nat.le_add_right _ _, hd1,
              Dvd.dvd.add hdd dvd_rfl, ?_, ?_, ?_, ?_, ?_, ?_, ?_, ?_, rfl, rfl, rfl,
              rfl, rfl, rfl, rfl, ?_⟩
            · intro r hrne
              simp [updRes, if_neg hrne]
            · simp [updRes]
            · simp [updRes]
            · simp [updRes]
            · simp [updRes]
            · simp [updRes]
            · intro _
              simp [updRes]
            · intro hcon
              have hcon2 : sub.done + slice = sub.done := hcon
              exact absurd hcon2 (by omega)
            · rw [if_pos ⟨hdn, hn⟩]
          · rw [if_neg hn] at h
            try dsimp only at h
            have hrest := ih _ _ _ _ _ _ h (Dvd.dvd.add hdd dvd_rfl) hdt hd1 hts
            refine donePost_comp hts ?_ hrest
            refine ⟨rfl, rfl, rfl, rfl, rfl, rfl, Nat.le_add_right _ _, hd1,
              Dvd.dvd.add hdd dvd_rfl, ?_, ?_, ?_, ?_, ?_, ?_, ?_, ?_, rfl, rfl, rfl,
              rfl, rfl, rfl, rfl, ?_⟩
            · intro r hrne
              simp [updRes, if_neg hrne]
            · simp [updRes]
            · simp [updRes]
            · simp [updRes]
            · simp [updRes]
            · simp [updRes]
            · intro _
              simp [updRes]
            · intro hcon
              have hcon2 : sub.done + slice = sub.done := hcon
              exact absurd hcon2 (by omega)
            · rw [if_neg (fun hx => hn hx.2)]
              rfl
    · rw [if_neg hg] at h
      cases h
      refine ⟨rfl, rfl, rfl, rfl, rfl, rfl, Nat.le_refl _, hle, hdd,
        fun r _ => rfl, rfl, rfl, rfl, rfl, rfl, ?_, fun _ => rfl, rfl, rfl, rfl, rfl,
        rfl, rfl, rfl, ?_⟩
      · intro hcon
        omega
      · rw [if_neg (by omega)]
        rfl

/-- `TransLoopPost` composes along intermediate states. -/
theorem transPost_comp {c cm c' : Comm} {sub subm sub' : ProxySubArgs}
    (h1 : TransLoopPost c sub cm subm) (h2 : TransLoopPost cm subm c' sub') :
    TransLoopPost c sub c' sub' := by
  obtain ⟨a1, a2, a3, a4, a5, a6, a7, a8, a9, a10, a11, a12, a13⟩ := h1
  obtain ⟨b1, b2, b3, b4, b5, b6, b7, b8, b9, b10, b11, b12, b13⟩ := h2
  exact ⟨b1.trans a1, b2.trans a2, b3.trans a3, b4.trans a4, b5.trans a5, b6.trans a6,
    a7.trans b7, b8.trans a8, b9.trans a9, b10.trans a10, b11.trans a11, b12.trans a12,
    b13.trans a13⟩

/-- Claiming a destination slot only writes the destination-base slots. -/
theorem pickDst_frame (c : Comm) (rf : Nat) (c1 : Comm) (b : Bool)
    (h : pickDst c rf = some (c1, b)) :
    c1.resources = c.resources ∧ c1.events = c.events ∧ c1.polls = c.polls ∧
      c1.copies = c.copies ∧ c1.info0 = c.info0 ∧ c1.info1 = c.info1 ∧
      c1.nChannels = c.nChannels ∧ c1.stepSize = c.stepSize := by
  unfold pickDst at h
  repeat' split at h
  all_goals try (cases h)
  all_goals exact ⟨rfl, rfl, rfl, rfl, rfl, rfl, rfl, rfl⟩

/-- Appending an accumulation entry only writes the entry lists. -/
theorem addInfo_frame (c : Comm) (b : Bool) (e : MemcpyInfoEntry) :
    (addInfo c b e).resources = c.resources ∧ (addInfo c b e).events = c.events ∧
      (addInfo c b e).polls = c.polls ∧ (addInfo c b e).copies = c.copies ∧
      (addInfo c b e).nChannels = c.nChannels ∧ (addInfo c b e).stepSize = c.stepSize := by
  cases b <;> exact ⟨rfl, rfl, rfl, rfl, rfl, rfl⟩

/-- Specification of the batched `transmitted` loop. -/
theorem transmittedLoopM_spec (slice : Nat) (hs : 0 < slice) (hsd : slice ∣ NCCL_STEPS) :
    ∀ (fuel : Nat) (c : Comm) (sub : ProxySubArgs) (c' : Comm) (sub' : ProxySubArgs),
      transmittedLoopM slice fuel c sub = .ok (c', sub') →
      slice ∣ sub.transmitted → slice ∣ sub.done → slice ∣ sub.nsteps →
      TransLoopPost c sub c' sub' ∧ slice ∣ sub'.transmitted ∧
      (sub.transmitted ≤ sub.done + NCCL_STEPS → sub'.transmitted ≤ sub.done + NCCL_STEPS) ∧
      (sub.transmitted ≤ sub.nsteps → sub'.transmitted ≤ sub.nsteps) ∧
      (sub.transmitted < sub'.transmitted →
        sub.base + (sub'.transmitted - slice) < (c.resources sub.resIdx).ceTail) := by
  intro fuel
  induction fuel with
  | zero =>
    intro c sub c' sub' h _ _ _
    exact absurd h (by simp [transmittedLoopM])
  | succ f ih =>
    intro c sub c' sub' h hdt hdd hdn
    rw [transmittedLoopM] at h
    by_cases hg : sub.transmitted < sub.done + NCCL_STEPS ∧ sub.transmitted < sub.nsteps
    · rw [if_pos hg] at h
      dsimp only at h
      by_cases hct : sub.base + sub.transmitted < (c.resources sub.resIdx).ceTail
      · rw [if_pos hct] at h
        cases hp : pickDst c (c.resources sub.resIdx).recvFifo with
        | none =>
          rw [hp] at h
          cases h
        | some pr =>
          obtain ⟨c1, bidx⟩ := pr
          rw [hp] at h
          dsimp only at h
          obtain ⟨pf1, pf2, pf3, pf4, pf5, pf6, pf7, pf8⟩ := pickDst_frame _ _ _ _ hp
          obtain ⟨af1, af2, af3, af4, af5, af6⟩ :=
            addInfo_frame c1 bidx ⟨sub.resIdx, (sub.base + sub.transmitted) % NCCL_STEPS,
              sub.channelId⟩
          obtain ⟨ihp, ihd, ihw, ihn, iha⟩ := ih _ _ _ _ h
            (Dvd.dvd.add hdt dvd_rfl) hdd hdn
          have hstep : TransLoopPost c sub
              (addInfo c1 bidx ⟨sub.resIdx, (sub.base + sub.transmitted) % NCCL_STEPS,
                sub.channelId⟩)
              { sub with transmitted := sub.transmitted + slice } :=
            ⟨rfl, rfl, rfl, rfl, rfl, rfl, Nat.le_add_right _ _, af1.trans pf1,
              af2.trans pf2, af3.trans pf3, af4.trans pf4, af5.trans pf7, af6.trans pf8⟩
          refine ⟨transPost_comp hstep ihp, ihd, ?_, ?_, ?_⟩
          · intro hb
            have : sub.transmitted + slice ≤ sub.done + NCCL_STEPS :=
              dvd_lt_add_le hs hdt (Dvd.dvd.add hdd hsd) hg.1
            exact ihw this
          · intro hb
            have : sub.transmitted + slice ≤ sub.nsteps :=
              dvd_lt_add_le hs hdt hdn hg.2
            exact ihn this
          · intro hadv
            rcases Nat.lt_or_ge (sub.transmitted + slice) sub'.transmitted with hc2 | hc2
            · have := iha hc2
              rw [af1.trans pf1] at this
              exact this
            · have heq : sub'.transmitted = sub.transmitted + slice := by
                have := ihp.trans_le
                dsimp only at this
                omega
              rw [heq]
              simpa using hct
      · rw [if_neg hct] at h
        cases h
        refine ⟨⟨rfl, rfl, rfl, rfl, rfl, rfl, Nat.le_refl _, rfl, rfl, rfl, rfl, rfl,
          rfl⟩, hdt, fun hb => hb, fun hb => hb, ?_⟩
        intro hcon
        omega
    · rw [if_neg hg] at h
      cases h
      refine ⟨⟨rfl, rfl, rfl, rfl, rfl, rfl, Nat.le_refl _, rfl, rfl, rfl, rfl, rfl,
        rfl⟩, hdt, fun hb => hb, fun hb => hb, ?_⟩
      intro hcon
      omega

/-- Specification of one sub-operation's batched pass (SIMPLE protocol):
done drain followed by transmitted scan. -/
theorem subPassM_spec (hw : EvKey → Bool) (qf slice fuel : Nat) (hs : 0 < slice)
    (hsd : slice ∣ NCCL_STEPS) (c : Comm) (sub : ProxySubArgs) (d : Nat)
    (c' : Comm) (sub' : ProxySubArgs) (d' : Nat)
    (h : subPassM hw qf slice NCCL_PROTO_SIMPLE fuel c sub d = .ok (c', sub', d'))
    (hb : SubBounds slice sub) (hdn : slice ∣ sub.nsteps) :
    SubBounds slice sub' ∧
    sub'.resIdx = sub.resIdx ∧ sub'.channelId = sub.channelId ∧
    sub'.nsteps = sub.nsteps ∧ sub'.base = sub.base ∧ sub'.posted = sub.posted ∧
    sub.done ≤ sub'.done ∧ sub.transmitted ≤ sub'.transmitted ∧
    (∀ r, r ≠ sub.resIdx → c'.resources r = c.resources r) ∧
    (∀ r, (c'.resources r).ceTail = (c.resources r).ceTail ∧
          (c'.resources r).sizesFifo = (c.resources r).sizesFifo ∧
          (c'.resources r).recvFifo = (c.resources r).recvFifo ∧
          (c'.resources r).ceDevBuff = (c.resources r).ceDevBuff ∧
          (c'.resources r).offsets = (c.resources r).offsets) ∧
    (sub.done < sub'.done → (c'.resources sub.resIdx).shmTail = sub.base + sub'.done) ∧
    (sub'.done = sub.done →
      (c'.resources sub.resIdx).shmTail = (c.resources sub.resIdx).shmTail) ∧
    (sub.transmitted < sub'.transmitted →
      sub.base + (sub'.transmitted - slice) < (c.resources sub.resIdx).ceTail) ∧
    c'.nChannels = c.nChannels ∧ c'.stepSize = c.stepSize ∧
    d' = d + (if sub.done < sub.nsteps ∧ sub'.done = sub.nsteps then 1 else 0) := by
  obtain ⟨hb1, hb2, hb3, hb4, hb5⟩ := hb
  unfold subPassM at h
  rw [if_neg (fun hx => hx rfl)] at h
  rw [exceptBind_ok_iff] at h
  obtain ⟨⟨c1, sub1, d1⟩, h1, h⟩ := h
  rw [exceptBind_ok_iff] at h
  obtain ⟨⟨c2, sub2⟩, h2, h⟩ := h
  cases h
  obtain ⟨p1, p2, p3, p4, p5, p6, p7, p8, p9, p10, p11, p12, p13, p14, p15, p16, p17,
    p18, p19, p20, p21, p22, p23, p24, p25⟩ :=
    doneLoopM_spec hw qf slice hs fuel c sub d c1 sub1 d' h1 hb4 hb5 hb1 hb3
  obtain ⟨tp, td, tw, tn, ta⟩ := transmittedLoopM_spec slice hs hsd fuel c1 sub1 c' sub'
    h2 (by rw [p6]; exact hb5) p9 (by rw [p3]; exact hdn)
  obtain ⟨t1, t2, t3, t4, t5, t6, t7, t8, t9, t10, t11, t12, t13⟩ := tp
  refine ⟨⟨?_, ?_, ?_, ?_, ?_⟩, t1.trans p1, t2.trans p2, t3.trans p3, t4.trans p4,
    t5.trans p5, ?_, ?_, ?_, ?_, ?_, ?_, ?_, t12.trans p23, t13.trans p24, ?_⟩
  · rw [t6]
    have h7 := t7
    rw [p6] at h7
    omega
  · have hw2 := tw (by rw [p6]; omega)
    rw [t6]
    omega
  · have hn2 := tn (by rw [p6, p3]; exact hb3)
    rw [t3]
    exact hn2
  · rw [t6]
    exact p9
  · exact td
  · rw [t6]
    exact p7
  · have h7 := t7
    rw [p6] at h7
    exact h7
  · intro r hrne
    rw [t8]
    exact p10 r hrne
  · intro r
    rw [t8]
    by_cases hr : r = sub.resIdx
    · subst hr
      exact ⟨p11, p12, p13, p14, p15⟩
    · rw [p10 r hr]
      exact ⟨rfl, rfl, rfl, rfl, rfl⟩
  · intro hlt
    rw [t8, t6]
    rw [t6] at hlt
    exact p16 hlt
  · intro he
    rw [t8]
    exact p17 (by omega)
  · intro hlt
    have hlt2 : sub1.transmitted < sub'.transmitted := by rw [p6]; exact hlt
    have hta := ta hlt2
    rw [p1, p4, p11] at hta
    exact hta
  · rw [t6]
    exact p25

/-- Specification of the batched per-sub scan over the whole sub list
(SIMPLE protocol): lengths and identity fields are preserved, the done tally
advances by exactly the number of newly finished sub-operations, resources of
connections outside the op are untouched, producer-side fields are never
written, and per position the cursors advance within bounds, with the
consumer-visible tail republished as `base + done` exactly on `done`
advances. -/
theorem subsPassM_spec (hw : EvKey → Bool) (qf slice fuel : Nat) (hs : 0 < slice)
    (hsd : slice ∣ NCCL_STEPS) :
    ∀ (subs : List ProxySubArgs) (c : Comm) (d : Nat) (c' : Comm)
      (subs' : List ProxySubArgs) (d' : Nat),
      subsPassM hw qf slice NCCL_PROTO_SIMPLE fuel c subs d = .ok (c', subs', d') →
      (∀ sub ∈ subs, SubBounds slice sub ∧ slice ∣ sub.nsteps) →
      (subs.map (fun x => x.resIdx)).Nodup →
      subs'.length = subs.length ∧
      d' + countFinished subs = d + countFinished subs' ∧
      (∀ r, r ∉ subs.map (fun x => x.resIdx) → c'.resources r = c.resources r) ∧
      (∀ r, (c'.resources r).ceTail = (c.resources r).ceTail ∧
            (c'.resources r).sizesFifo = (c.resources r).sizesFifo ∧
            (c'.resources r).recvFifo = (c.resources r).recvFifo ∧
            (c'.resources r).ceDevBuff = (c.resources r).ceDevBuff ∧
            (c'.resources r).offsets = (c.resources r).offsets) ∧
      c'.nChannels = c.nChannels ∧ c'.stepSize = c.stepSize ∧
      (∀ (i : Nat) (a b : ProxySubArgs), subs[i]? = some a → subs'[i]? = some b →
        b.resIdx = a.resIdx ∧ b.channelId = a.channelId ∧ b.nsteps = a.nsteps ∧
        b.base = a.base ∧ b.posted = a.posted ∧ SubBounds slice b ∧
        a.done ≤ b.done ∧ a.transmitted ≤ b.transmitted ∧
        (a.transmitted < b.transmitted →
          a.base + (b.transmitted - slice) < (c.resources a.resIdx).ceTail) ∧
        (a.done < b.done → (c'.resources a.resIdx).shmTail = a.base + b.done) ∧
        (b.done = a.done →
          (c'.resources a.resIdx).shmTail = (c.resources a.resIdx).shmTail)) := by
  intro subs
  induction subs with
  | nil =>
    intro c d c' subs' d' h hbs hnd
    simp only [subsPassM] at h
    cases h
    refine ⟨rfl, rfl, fun r _ => rfl, fun r => ⟨rfl, rfl, rfl, rfl, rfl⟩, rfl, rfl, ?_⟩
    intro i a b ha _
    simp at ha
  | cons sub rest ih =>
    intro c d c' subs' d' h hbs hnd
    simp only [subsPassM] at h
    rw [exceptBind_ok_iff] at h
    obtain ⟨⟨c1, sub1, d1⟩, h1, h⟩ := h
    rw [exceptBind_ok_iff] at h
    obtain ⟨⟨c2, rest2, d2⟩, h2, h⟩ := h
    cases h
    simp only [List.map_cons] at hnd
    rw [List.nodup_cons] at hnd
    obtain ⟨hbhead, hdnhead⟩ := hbs sub (by simp)
    obtain ⟨s1, s2, s3, s4, s5, s6, s7, s8, s9, s10, s11, s12, s13, s14, s15, s16⟩ :=
      subPassM_spec hw qf slice fuel hs hsd c sub d c1 sub1 d1 h1 hbhead hdnhead
    obtain ⟨r1, r2, r3, r4, r5, r6, r7⟩ :=
      ih c1 d1 c2 rest2 d2 h2 (fun x hx => hbs x (by simp [hx])) hnd.2
    have hheadnotin : sub.resIdx ∉ rest.map (fun x => x.resIdx) := hnd.1
    refine ⟨?_, ?_, ?_, ?_, ?_, ?_, ?_⟩
    · simp [r1]
    · dsimp only
      have hhead : d1 + (if sub.done == sub.nsteps then 1 else 0) =
          d + (if sub1.done == sub1.nsteps then 1 else 0) := by
        obtain ⟨hc1, hc2, hc3, hc4, hc5⟩ := hbhead
        obtain ⟨hd1, hd2, hd3, hd4, hd5⟩ := s1
        rw [s16, s4]
        simp only [beq_iff_eq, s4]
        split_ifs <;> omega
      have hcf1 : countFinished (sub :: rest) =
          countFinished rest + (if sub.done == sub.nsteps then 1 else 0) :=
        List.countP_cons _ _ _
      have hcf2 : countFinished (sub1 :: rest2) =
          countFinished rest2 + (if sub1.done == sub1.nsteps then 1 else 0) :=
        List.countP_cons _ _ _
      rw [hcf1, hcf2]
      omega
    · intro r hr
      simp only [List.map_cons, List.mem_cons] at hr
      push_neg at hr
      rw [r3 r (by simpa using hr.2), s9 r hr.1]
    · intro r
      obtain ⟨e1, e2, e3, e4, e5⟩ := r4 r
      obtain ⟨f1, f2, f3, f4, f5⟩ := s10 r
      exact ⟨e1.trans f1, e2.trans f2, e3.trans f3, e4.trans f4, e5.trans f5⟩
    · exact r5.trans s14
    · exact r6.trans s15
    · intro i a b hia hib
      cases i with
      | zero =>
        simp only [List.getElem?_cons_zero, Option.some.injEq] at hia hib
        subst hia
        subst hib
        have hfinal : c2.resources sub.resIdx = c1.resources sub.resIdx :=
          r3 sub.resIdx hheadnotin
        refine ⟨s2, s3, s4, s5, s6, s1, s7, s8, ?_, ?_, ?_⟩
        · intro hlt
          exact s13 hlt
        · intro hlt
          rw [hfinal]
          exact s11 hlt
        · intro he
          rw [hfinal]
          exact s12 he
      | succ j =>
        simp only [List.getElem?_cons_succ] at hia hib
        obtain ⟨q1, q2, q3, q4, q5, q6, q7, q8, q9, q10, q11⟩ := r7 j a b hia hib
        have hamem : a.resIdx ∈ rest.map (fun x => x.resIdx) := by
          have : a ∈ rest := by
            have := List.getElem?_eq_some_iff.mp hia
            obtain ⟨hj, hja⟩ := this
            exact hja ▸ List.getElem_mem hj
          exact List.mem_map_of_mem _ this
        have hane : a.resIdx ≠ sub.resIdx := by
          intro hx
          exact hheadnotin (hx ▸ hamem)
        have hc1c : c1.resources a.resIdx = c.resources a.resIdx := s9 a.resIdx hane
        refine ⟨q1, q2, q3, q4, q5, q6, q7, q8, ?_, ?_, ?_⟩
        · intro hlt
          have := q9 hlt
          rw [hc1c] at this
          exact this
        · intro hlt
          have := q10 hlt
          exact this
        · intro he
          have := q11 he
          rw [hc1c] at this
          exact this

/-- The final drain stage of a batched progress call keeps the op args and
the resource table. -/
theorem progressTail_spec (c3 : Comm) (args3 : ProxyArgs) (s' : State)
    (h : (if args3.isLastInChain then do
            let c4 ← drainOne c3 false
            let c5 ← drainOne c4 true
            (.ok { comm := c5, args := args3 } : Except Unit State)
          else .ok { comm := c3, args := args3 }) = .ok s') :
    s'.args = args3 ∧ s'.comm.resources = c3.resources ∧
      s'.comm.nChannels = c3.nChannels ∧ s'.comm.stepSize = c3.stepSize := by
  split at h
  · rw [exceptBind_ok_iff] at h
    obtain ⟨c4, h4, h⟩ := h
    rw [exceptBind_ok_iff] at h
    obtain ⟨c5, h5, h⟩ := h
    cases h
    obtain ⟨a1, -, -, a4, a5⟩ := drainOne_frame _ _ _ h4
    obtain ⟨b1, -, -, b4, b5⟩ := drainOne_frame _ _ _ h5
    exact ⟨rfl, b1.trans a1, b4.trans a4, b5.trans a5⟩
  · cases h
    exact ⟨rfl, rfl, rfl, rfl⟩

/-- Pointwise-equal `resIdx` projections give equal `resIdx` maps. -/
theorem map_resIdx_eq_of_ptwise (l1 l2 : List ProxySubArgs)
    (hlen : l1.length = l2.length)
    (hpt : ∀ (i : Nat) (a b : ProxySubArgs), l1[i]? = some a → l2[i]? = some b →
      a.resIdx = b.resIdx) :
    l1.map (fun x => x.resIdx) = l2.map (fun x => x.resIdx) := by
  apply List.ext_getElem?
  intro i
  rcases h1 : l1[i]? with - | a
  · rcases h2 : l2[i]? with - | b
    · simp [List.getElem?_map, h1, h2]
    · exfalso
      have e1 : l1.length ≤ i := List.getElem?_eq_none_iff.mp h1
      have e2 : i < l2.length := (List.getElem?_eq_some_iff.mp h2).1
      omega
  · rcases h2 : l2[i]? with - | b
    · exfalso
      have e1 : l2.length ≤ i := List.getElem?_eq_none_iff.mp h2
      have e2 : i < l1.length := (List.getElem?_eq_some_iff.mp h1).1
      omega
    · simp [List.getElem?_map, h1, h2, hpt i a b h1 h2]

/-- Invariant transfer through one batched per-sub scan: positional identity,
base, bounds, tail and count facts relative to the initial op state are
preserved. -/
theorem passInv (s0 : State) (hinit : InitOk s0) (hw : EvKey → Bool) (qf fuel : Nat)
    (c : Comm) (subs : List ProxySubArgs) (d : Nat)
    (c1 : Comm) (subs1 : List ProxySubArgs) (d1 : Nat)
    (hpass : subsPassM hw qf s0.args.sliceSteps NCCL_PROTO_SIMPLE fuel c subs d =
      .ok (c1, subs1, d1))
    (hlen : subs.length = s0.args.subs.length)
    (hd : d = countFinished subs)
    (hpre : ∀ (i : Nat) (a b : ProxySubArgs), subs[i]? = some a →
      s0.args.subs[i]? = some b →
      a.resIdx = b.resIdx ∧ a.nsteps = b.nsteps ∧ a.channelId = b.channelId ∧
      a.base = roundUp ((s0.comm.resources b.resIdx).step) s0.args.chunkSteps ∧
      SubBounds s0.args.sliceSteps a ∧ SubTail c a) :
    subs1.length = s0.args.subs.length ∧ d1 = countFinished subs1 ∧
    (∀ (i : Nat) (a b : ProxySubArgs), subs1[i]? = some a →
      s0.args.subs[i]? = some b →
      a.resIdx = b.resIdx ∧ a.nsteps = b.nsteps ∧ a.channelId = b.channelId ∧
      a.base = roundUp ((s0.comm.resources b.resIdx).step) s0.args.chunkSteps ∧
      SubBounds s0.args.sliceSteps a ∧ SubTail c1 a) ∧
    (∀ (i : Nat) (a b : ProxySubArgs), subs[i]? = some a → subs1[i]? = some b →
      a.done ≤ b.done ∧ a.transmitted ≤ b.transmitted ∧
      (a.transmitted < b.transmitted →
        a.base + (b.transmitted - s0.args.sliceSteps) < (c.resources a.resIdx).ceTail) ∧
      (a.done < b.done → (c1.resources a.resIdx).shmTail = a.base + b.done)) := by
  have hbs : ∀ sub ∈ subs, SubBounds s0.args.sliceSteps sub ∧
      s0.args.sliceSteps ∣ sub.nsteps := by
    intro sub hsub
    obtain ⟨i, hi⟩ := List.mem_iff_getElem?.mp hsub
    have hilt : i < subs.length := (List.getElem?_eq_some_iff.mp hi).1
    have hilt0 : i < s0.args.subs.length := by omega
    obtain ⟨e1, e2, e3, e4, e5, e6⟩ :=
      hpre i sub (s0.args.subs[i]) hi (List.getElem?_eq_getElem hilt0)
    refine ⟨e5, ?_⟩
    rw [e2]
    exact hinit.nstepsDvd _ (List.getElem_mem hilt0)
  have hnd : (subs.map (fun x => x.resIdx)).Nodup := by
    rw [map_resIdx_eq_of_ptwise subs s0.args.subs hlen
      (fun i a b ha hb => (hpre i a b ha hb).1)]
    exact hinit.resNodup
  obtain ⟨r1, r2, r3, r4, r5, r6, r7⟩ :=
    subsPassM_spec hw qf s0.args.sliceSteps fuel hinit.slicePos hinit.sliceDvdSteps
      subs c d c1 subs1 d1 hpass hbs hnd
  refine ⟨r1.trans hlen, by omega, ?_, ?_⟩
  · intro i a b ha hb
    have hia : i < subs1.length := (List.getElem?_eq_some_iff.mp ha).1
    have hia2 : i < subs.length := by omega
    have hpa : subs[i]? = some subs[i] := List.getElem?_eq_getElem hia2
    obtain ⟨q1, q2, q3, q4, q5, q6, q7, q8, q9, q10, q11⟩ := r7 i (subs[i]) a hpa ha
    obtain ⟨e1, e2, e3, e4, e5, e6⟩ := hpre i (subs[i]) b hpa hb
    refine ⟨q1.trans e1, q3.trans e2, q2.trans e3, q4.trans e4, q6, ?_⟩
    intro hpos
    rcases Nat.lt_or_ge (subs[i]).done a.done with hcase | hcase
    · rw [q1, q4]
      exact q10 hcase
    · have heq : a.done = (subs[i]).done := by omega
      have hpos0 : 0 < (subs[i]).done := by omega
      rw [q1, q4, heq, q11 heq]
      exact e6 hpos0
  · intro i a b ha hb
    obtain ⟨q1, q2, q3, q4, q5, q6, q7, q8, q9, q10, q11⟩ := r7 i a b ha hb
    exact ⟨q7, q8, q9, q10⟩

/-- One successful batched progress call preserves the reachability
invariant. -/
theorem progressMerge_step (s0 s s' : State) (hw : EvKey → Bool) (qf fuel : Nat)
    (hinit : InitOk s0) (hinv : ProgressInv s0 s)
    (h : p2pSendProxyProgressMerge hw qf fuel s = .ok s') :
    ProgressInv s0 s' := by
  have hproto : s.args.protocol = NCCL_PROTO_SIMPLE := hinv.proto_eq.trans hinit.protoSimple
  unfold p2pSendProxyProgressMerge at h
  by_cases hready : s.args.state = .ready
  · have hargs0 : s.args = s0.args := hinv.ready_args hready
    have hargs1 : readyReset s =
        { s.args with
          subs := s.args.subs.map (fun sub =>
            { sub with
              base := roundUp ((s.comm.resources sub.resIdx).step) s.args.chunkSteps,
              posted := 0, transmitted := 0, done := 0 }),
          state := .progress } := by
      rw [readyReset, if_pos hready]
    rw [hargs1] at h
    dsimp only at h
    rw [if_pos rfl] at h
    rw [exceptBind_ok_iff] at h
    obtain ⟨⟨c1, subs1, d1⟩, hpass, hrest⟩ := h
    try dsimp only at hrest
    rw [exceptBind_ok] at hrest
    try dsimp only at hrest
    obtain ⟨hargsEq, hres, -, -⟩ := progressTail_spec _ _ _ hrest
    rw [hproto, hinv.slice_eq] at hpass
    have hD : s.args.done = 0 := by
      rw [hargs0]
      exact hinit.doneZero
    have hcnt0 : countFinished (s.args.subs.map (fun sub =>
        { sub with
          base := roundUp ((s.comm.resources sub.resIdx).step) s.args.chunkSteps,
          posted := 0, transmitted := 0, done := 0 })) = 0 := by
      rw [countFinished, List.countP_eq_zero]
      intro x hx
      obtain ⟨y, hy, hxy⟩ := List.mem_map.mp hx
      subst hxy
      have hy0 : y ∈ s0.args.subs := by
        rw [← hargs0]
        exact hy
      have hpos := hinit.nstepsPos y hy0
      simp only [beq_iff_eq]
      try dsimp only
      omega
    have hpre : ∀ (i : Nat) (a b : ProxySubArgs),
        (s.args.subs.map (fun sub =>
          { sub with
            base := roundUp ((s.comm.resources sub.resIdx).step) s.args.chunkSteps,
            posted := 0, transmitted := 0, done := 0 }))[i]? = some a →
        s0.args.subs[i]? = some b →
        a.resIdx = b.resIdx ∧ a.nsteps = b.nsteps ∧ a.channelId = b.channelId ∧
        a.base = roundUp ((s0.comm.resources b.resIdx).step) s0.args.chunkSteps ∧
        SubBounds s0.args.sliceSteps a ∧ SubTail s.comm a := by
      intro i a b ha hb
      rw [List.getElem?_map, hargs0, hb] at ha
      have ha2 : ({ b with
          base := roundUp ((s.comm.resources b.resIdx).step) s0.args.chunkSteps,
          posted := 0, transmitted := 0, done := 0 } : ProxySubArgs) = a := by
        simpa using ha
      subst ha2
      refine ⟨rfl, rfl, rfl, ?_, ?_, ?_⟩
      · dsimp only
        rw [hinv.ready_step hready b.resIdx]
      · exact ⟨Nat.zero_le _, Nat.zero_le _, Nat.zero_le _, dvd_zero _, dvd_zero _⟩
      · intro hx
        exact absurd hx (Nat.lt_irrefl 0)
    obtain ⟨k1, k2, k3, -⟩ := passInv s0 hinit hw qf fuel s.comm _ s.args.done c1 subs1 d1
      hpass (by rw [List.length_map, hargs0]) (by rw [hD, hcnt0]) hpre
    have hsubs2 : s'.args.subs = subs1 := by
      rw [hargsEq]
      split <;> rfl
    have hdone2 : s'.args.done = d1 := by
      rw [hargsEq]
      split <;> rfl
    have hstate2 : s'.args.state ≠ ProxyOpState.ready := by
      rw [hargsEq]
      split
      · intro hx
        cases hx
      · intro hx
        cases hx
    have hsl2 : s'.args.sliceSteps = s.args.sliceSteps := by
      rw [hargsEq]
      split <;> rfl
    have hch2 : s'.args.chunkSteps = s.args.chunkSteps := by
      rw [hargsEq]
      split <;> rfl
    have hpr2 : s'.args.protocol = s.args.protocol := by
      rw [hargsEq]
      split <;> rfl
    refine ⟨hsl2.trans hinv.slice_eq, hch2.trans hinv.chunk_eq, hpr2.trans hinv.proto_eq,
      ?_, fun hx => absurd hx hstate2, fun hx => absurd hx hstate2, ?_, ?_⟩
    · rw [hsubs2]
      exact k1
    · intro _ i a b ha hb
      rw [hsubs2] at ha
      obtain ⟨e1, e2, e3, e4, e5, e6⟩ := k3 i a b ha hb
      refine ⟨e1, e2, e3, e4, e5, ?_⟩
      intro hx
      rw [hres]
      exact e6 hx
    · intro _
      rw [hdone2, hsubs2]
      exact k2
  · have hargs1 : readyReset s = s.args := by
      rw [readyReset, if_neg hready]
    rw [hargs1] at h
    dsimp only at h
    by_cases hprog : s.args.state = .progress
    · rw [if_pos hprog] at h
      rw [exceptBind_ok_iff] at h
      obtain ⟨⟨c1, subs1, d1⟩, hpass, hrest⟩ := h
      try dsimp only at hrest
      rw [exceptBind_ok] at hrest
      try dsimp only at hrest
      obtain ⟨hargsEq, hres, -, -⟩ := progressTail_spec _ _ _ hrest
      rw [hproto, hinv.slice_eq] at hpass
      obtain ⟨k1, k2, k3, -⟩ := passInv s0 hinit hw qf fuel s.comm s.args.subs s.args.done
        c1 subs1 d1 hpass hinv.len_eq (hinv.run_count hready) (hinv.run_subs hready)
      have hsubs2 : s'.args.subs = subs1 := by
        rw [hargsEq]
        split <;> rfl
      have hdone2 : s'.args.done = d1 := by
        rw [hargsEq]
        split <;> rfl
      have hstate2 : s'.args.state ≠ ProxyOpState.ready := by
        rw [hargsEq]
        split
        · intro hx
          cases hx
        · intro hx
          exact hready hx
      have hsl2 : s'.args.sliceSteps = s.args.sliceSteps := by
        rw [hargsEq]
        split <;> rfl
      have hch2 : s'.args.chunkSteps = s.args.chunkSteps := by
        rw [hargsEq]
        split <;> rfl
      have hpr2 : s'.args.protocol = s.args.protocol := by
        rw [hargsEq]
        split <;> rfl
      refine ⟨hsl2.trans hinv.slice_eq, hch2.trans hinv.chunk_eq, hpr2.trans hinv.proto_eq,
        ?_, fun hx => absurd hx hstate2, fun hx => absurd hx hstate2, ?_, ?_⟩
      · rw [hsubs2]
        exact k1
      · intro _ i a b ha hb
        rw [hsubs2] at ha
        obtain ⟨e1, e2, e3, e4, e5, e6⟩ := k3 i a b ha hb
        refine ⟨e1, e2, e3, e4, e5, ?_⟩
        intro hx
        rw [hres]
        exact e6 hx
      · intro _
        rw [hdone2, hsubs2]
        exact k2
    · rw [if_neg hprog] at h
      rw [exceptBind_ok] at h
      dsimp only at h
      obtain ⟨hargsEq, hres, -, -⟩ := progressTail_spec s.comm
        { s.args with idle := 1 } s' h
      refine ⟨?_, ?_, ?_, ?_, ?_, ?_, ?_, ?_⟩
      · rw [hargsEq]
        exact hinv.slice_eq
      · rw [hargsEq]
        exact hinv.chunk_eq
      · rw [hargsEq]
        exact hinv.proto_eq
      · rw [hargsEq]
        exact hinv.len_eq
      · intro hx
        rw [hargsEq] at hx
        exact absurd hx hready
      · intro hx
        rw [hargsEq] at hx
        exact absurd hx hready
      · intro _ i a b ha hb
        rw [hargsEq] at ha
        obtain ⟨e1, e2, e3, e4, e5, e6⟩ := hinv.run_subs hready i a b ha hb
        refine ⟨e1, e2, e3, e4, e5, ?_⟩
        intro hx
        rw [hres]
        exact e6 hx
      · intro _
        rw [hargsEq]
        exact hinv.run_count hready

/-- A producer publication preserves the reachability invariant: it only
raises `ceRecvMem->tail` and rewrites `sizesFifo` entries, leaving the
per-connection `step` and `shmTail` fields and the whole op untouched. -/
theorem producer_inv (s0 s s' : State) (hinv : ProgressInv s0 s)
    (hp : ProducerStep s s') : ProgressInv s0 s' := by
  cases hp with
  | publish r newTail newSizes hle =>
    have hstep : ∀ q, (((updRes s.comm r
        (fun x => { x with ceTail := newTail, sizesFifo := newSizes })).resources q).step) =
        (s.comm.resources q).step := by
      intro q
      simp only [updRes]
      split <;> rfl
    have hsh : ∀ q, (((updRes s.comm r
        (fun x => { x with ceTail := newTail, sizesFifo := newSizes })).resources q).shmTail) =
        (s.comm.resources q).shmTail := by
      intro q
      simp only [updRes]
      split <;> rfl
    refine ⟨hinv.slice_eq, hinv.chunk_eq, hinv.proto_eq, hinv.len_eq, ?_, ?_, ?_, ?_⟩
    · intro hx
      exact hinv.ready_args hx
    · intro hx q
      exact (hstep q).trans (hinv.ready_step hx q)
    · intro hx i a b ha hb
      obtain ⟨e1, e2, e3, e4, e5, e6⟩ := hinv.run_subs hx i a b ha hb
      refine ⟨e1, e2, e3, e4, e5, ?_⟩
      intro hpos
      exact (hsh a.resIdx).trans (e6 hpos)
    · intro hx
      exact hinv.run_count hx

/-- Every state reachable under the batched path satisfies the invariant. -/
theorem reachM_inv (s0 s : State) (hinit : InitOk s0) (hr : ReachM s0 s) :
    ProgressInv s0 s := by
  induction hr with
  | refl =>
    exact ⟨rfl, rfl, rfl, rfl, fun _ => rfl, fun _ r => rfl,
      fun hx => absurd hinit.stateReady hx, fun hx => absurd hinit.stateReady hx⟩
  | prog s1 s2 hw qf fuel hr1 hstep ih =>
    exact progressMerge_step s0 s1 s2 hw qf fuel hinit ih hstep
  | producer s1 s2 hr1 hstep ih =>
    exact producer_inv s0 s1 s2 ih hstep

/-- Specification of the fallback `transmitted` loop: only the copy log and
the `transmitted` cursor change, under the same window and producer-tail
guards as the batched loop. -/
theorem transmittedLoopS_spec (stepSize slice : Nat) (hs : 0 < slice)
    (hsd : slice ∣ NCCL_STEPS) :
    ∀ (fuel : Nat) (c : Comm) (sub : ProxySubArgs) (c' : Comm) (sub' : ProxySubArgs),
      transmittedLoopS stepSize slice fuel c sub = .ok (c', sub') →
      slice ∣ sub.transmitted → slice ∣ sub.done → slice ∣ sub.nsteps →
      (sub'.resIdx = sub.resIdx ∧ sub'.channelId = sub.channelId ∧
       sub'.nsteps = sub.nsteps ∧ sub'.base = sub.base ∧ sub'.posted = sub.posted ∧
       sub'.done = sub.done ∧ sub.transmitted ≤ sub'.transmitted ∧
       c'.resources = c.resources ∧ c'.nChannels = c.nChannels ∧
       c'.stepSize = c.stepSize) ∧ slice ∣ sub'.transmitted ∧
      (sub.transmitted ≤ sub.done + NCCL_STEPS → sub'.transmitted ≤ sub.done + NCCL_STEPS) ∧
      (sub.transmitted ≤ sub.nsteps → sub'.transmitted ≤ sub.nsteps) ∧
      (sub.transmitted < sub'.transmitted →
        sub.base + (sub'.transmitted - slice) < (c.resources sub.resIdx).ceTail) := by
  intro fuel
  induction fuel with
  | zero =>
    intro c sub c' sub' h _ _ _
    exact absurd h (by simp [transmittedLoopS])
  | succ f ih =>
    intro c sub c' sub' h hdt hdd hdn
    rw [transmittedLoopS] at h
    by_cases hg : sub.transmitted < sub.done + NCCL_STEPS ∧ sub.transmitted < sub.nsteps
    · rw [if_pos hg] at h
      dsimp only at h
      by_cases hct : sub.base + sub.transmitted < (c.resources sub.resIdx).ceTail
      · rw [if_pos hct] at h
        obtain ⟨ihp, ihd, ihw, ihn, iha⟩ := ih _ _ _ _ h (Dvd.dvd.add hdt dvd_rfl) hdd hdn
        obtain ⟨t1, t2, t3, t4, t5, t6, t7, t8, t9, t10⟩ := ihp
        have h7 : sub.transmitted + slice ≤ sub'.transmitted := t7
        refine ⟨⟨t1, t2, t3, t4, t5, t6, by omega, t8, t9, t10⟩, ihd, ?_, ?_, ?_⟩
        · intro hb
          have hstep : sub.transmitted + slice ≤ sub.done + NCCL_STEPS :=
            dvd_lt_add_le hs hdt (Dvd.dvd.add hdd hsd) hg.1
          exact ihw hstep
        · intro hb
          have hstep : sub.transmitted + slice ≤ sub.nsteps :=
            dvd_lt_add_le hs hdt hdn hg.2
          exact ihn hstep
        · intro hadv
          rcases Nat.lt_or_ge (sub.transmitted + slice) sub'.transmitted with hc2 | hc2
          · exact iha hc2
          · have heq : sub'.transmitted = sub.transmitted + slice := by omega
            rw [heq]
            simpa using hct
      · rw [if_neg hct] at h
        cases h
        exact ⟨⟨rfl, rfl, rfl, rfl, rfl, rfl, Nat.le_refl _, rfl, rfl, rfl⟩, hdt,
          fun hb => hb, fun hb => hb, fun hcon => absurd hcon (Nat.lt_irrefl _)⟩
    · rw [if_neg hg] at h
      cases h
      exact ⟨⟨rfl, rfl, rfl, rfl, rfl, rfl, Nat.le_refl _, rfl, rfl, rfl⟩, hdt,
        fun hb => hb, fun hb => hb, fun hcon => absurd hcon (Nat.lt_irrefl _)⟩

/-- Specification of the fallback single-slice `done` check: it satisfies the
same postcondition as one run of the batched `done` drain loop. -/
theorem doneOnceS_spec (hw : EvKey → Bool) (slice : Nat) (hs : 0 < slice)
    (c : Comm) (sub : ProxySubArgs) (d : Nat)
    (hdd : slice ∣ sub.done) (hdt : slice ∣ sub.transmitted)
    (hle : sub.done ≤ sub.transmitted) (hts : sub.transmitted ≤ sub.nsteps) :
    DoneLoopPost slice c sub d (doneOnceS hw slice c sub d).1
      (doneOnceS hw slice c sub d).2.1 (doneOnceS hw slice c sub d).2.2 := by
  unfold doneOnceS
  by_cases hg : sub.done < sub.transmitted
  · rw [if_pos hg]
    dsimp only
    by_cases hhw : hw (sub.resIdx, (sub.base + sub.done) % NCCL_STEPS) = true
    · rw [if_pos hhw]
      dsimp only
      have hd1 : sub.done + slice ≤ sub.transmitted := dvd_lt_add_le hs hdd hdt hg
      by_cases hn : sub.done + slice = sub.nsteps
      · rw [if_pos hn]
        dsimp only
        refine ⟨rfl, rfl, rfl, rfl, rfl, rfl, Nat.le_add_right _ _, hd1,
          Dvd.dvd.add hdd dvd_rfl, ?_, ?_, ?_, ?_, ?_, ?_, ?_, ?_, rfl, rfl, rfl, rfl,
          rfl, rfl, rfl, ?_⟩
        · intro r hrne
          simp [updRes, if_neg hrne]
        · simp [updRes]
        · simp [updRes]
        · simp [updRes]
        · simp [updRes]
        · simp [updRes]
        · intro _
          simp [updRes]
        · intro he
          have he2 : sub.done + slice = sub.done := he
          exact absurd he2 (by omega)
        · rw [if_pos ⟨by omega, hn⟩]
      · rw [if_neg hn]
        dsimp only
        refine ⟨rfl, rfl, rfl, rfl, rfl, rfl, Nat.le_add_right _ _, hd1,
          Dvd.dvd.add hdd dvd_rfl, ?_, ?_, ?_, ?_, ?_, ?_, ?_, ?_, rfl, rfl, rfl, rfl,
          rfl, rfl, rfl, ?_⟩
        · intro r hrne
          simp [updRes, if_neg hrne]
        · simp [updRes]
        · simp [updRes]
        · simp [updRes]
        · simp [updRes]
        · simp [updRes]
        · intro _
          simp [updRes]
        · intro he
          have he2 : sub.done + slice = sub.done := he
          exact absurd he2 (by omega)
        · rw [if_neg (fun hx => hn hx.2)]
          omega
    · rw [if_neg hhw]
      dsimp only
      rw [if_neg (by omega : ¬ sub.done = sub.nsteps)]
      dsimp only
      refine ⟨rfl, rfl, rfl, rfl, rfl, rfl, Nat.le_refl _, hle, hdd, fun r _ => rfl,
        rfl, rfl, rfl, rfl, rfl, ?_, fun _ => rfl, rfl, rfl, rfl, rfl, rfl, rfl, rfl, ?_⟩
      · intro hcon
        exact absurd hcon (Nat.lt_irrefl _)
      · rw [if_neg (by omega : ¬ (sub.done < sub.nsteps ∧ sub.done = sub.nsteps))]
        omega
  · rw [if_neg hg]
    refine ⟨rfl, rfl, rfl, rfl, rfl, rfl, Nat.le_refl _, hle, hdd, fun r _ => rfl,
      rfl, rfl, rfl, rfl, rfl, ?_, fun _ => rfl, rfl, rfl, rfl, rfl, rfl, rfl, rfl, ?_⟩
    · intro hcon
      exact absurd hcon (Nat.lt_irrefl _)
    · rw [if_neg (by omega : ¬ (sub.done < sub.nsteps ∧ sub.done = sub.nsteps))]
      rfl

/-- Specification of one sub-operation's fallback pass (SIMPLE protocol):
transmitted scan followed by the single done check.  The postcondition is
identical in shape to the batched per-sub pass. -/
theorem subPassS_spec (hw : EvKey → Bool) (stepSize slice fuel : Nat) (hs : 0 < slice)
    (hsd : slice ∣ NCCL_STEPS) (c : Comm) (sub : ProxySubArgs) (d : Nat)
    (c' : Comm) (sub' : ProxySubArgs) (d' : Nat)
    (h : subPassS hw stepSize slice NCCL_PROTO_SIMPLE fuel c sub d = .ok (c', sub', d'))
    (hb : SubBounds slice sub) (hdn : slice ∣ sub.nsteps) :
    SubBounds slice sub' ∧
    sub'.resIdx = sub.resIdx ∧ sub'.channelId = sub.channelId ∧
    sub'.nsteps = sub.nsteps ∧ sub'.base = sub.base ∧ sub'.posted = sub.posted ∧
    sub.done ≤ sub'.done ∧ sub.transmitted ≤ sub'.transmitted ∧
    (∀ r, r ≠ sub.resIdx → c'.resources r = c.resources r) ∧
    (∀ r, (c'.resources r).ceTail = (c.resources r).ceTail ∧
          (c'.resources r).sizesFifo = (c.resources r).sizesFifo ∧
          (c'.resources r).recvFifo = (c.resources r).recvFifo ∧
          (c'.resources r).ceDevBuff = (c.resources r).ceDevBuff ∧
          (c'.resources r).offsets = (c.resources r).offsets) ∧
    (sub.done < sub'.done → (c'.resources sub.resIdx).shmTail = sub.base + sub'.done) ∧
    (sub'.done = sub.done →
      (c'.resources sub.resIdx).shmTail = (c.resources sub.resIdx).shmTail) ∧
    (sub.transmitted < sub'.transmitted →
      sub.base + (sub'.transmitted - slice) < (c.resources sub.resIdx).ceTail) ∧
    c'.nChannels = c.nChannels ∧ c'.stepSize = c.stepSize ∧
    d' = d + (if sub.done < sub.nsteps ∧ sub'.done = sub.nsteps then 1 else 0) := by
  obtain ⟨hb1, hb2, hb3, hb4, hb5⟩ := hb
  unfold subPassS at h
  rw [if_neg (fun hx => hx rfl)] at h
  rw [exceptBind_ok_iff] at h
  obtain ⟨⟨c1, sub1⟩, h1, h⟩ := h
  rw [Except.ok.injEq] at h
  obtain ⟨tp, td, tw, tn, ta⟩ := transmittedLoopS_spec stepSize slice hs hsd fuel c sub
    c1 sub1 h1 hb5 hb4 hdn
  obtain ⟨t1, t2, t3, t4, t5, t6, t7, t8, t9, t10⟩ := tp
  have hts1 : sub1.transmitted ≤ sub1.nsteps := by
    rw [t3]
    exact tn hb3
  have hpost := doneOnceS_spec hw slice hs c1 sub1 d (by rw [t6]; exact hb4) td
    (by rw [t6]; omega) hts1
  rw [h] at hpost
  dsimp only at hpost
  obtain ⟨p1, p2, p3, p4, p5, p6, p7, p8, p9, p10, p11, p12, p13, p14, p15, p16, p17,
    p18, p19, p20, p21, p22, p23, p24, p25⟩ := hpost
  have htw1 : sub1.transmitted ≤ sub.done + NCCL_STEPS := tw hb2
  refine ⟨⟨?_, ?_, ?_, ?_, ?_⟩, p1.trans t1, p2.trans t2, p3.trans t3, p4.trans t4,
    p5.trans t5, ?_, ?_, ?_, ?_, ?_, ?_, ?_, p23.trans t9, p24.trans t10, ?_⟩
  · rw [p6]
    exact p8
  · rw [p6]
    have h6 : sub1.done = sub.done := t6
    omega
  · rw [p6, p3]
    exact hts1
  · exact p9
  · rw [p6]
    exact td
  · rw [← t6]
    exact p7
  · rw [p6]
    exact t7
  · intro r hrne
    rw [p10 r (by rw [t1]; exact hrne)]
    exact congrFun t8 r
  · intro r
    by_cases hr : r = sub.resIdx
    · subst hr
      rw [t1] at p11 p12 p13 p14 p15
      rw [p11, p12, p13, p14, p15, t8]
      exact ⟨rfl, rfl, rfl, rfl, rfl⟩
    · rw [p10 r (by rw [t1]; exact hr), t8]
      exact ⟨rfl, rfl, rfl, rfl, rfl⟩
  · intro hlt
    have hlt1 : sub1.done < sub'.done := by
      have h6 : sub1.done = sub.done := t6
      omega
    have := p16 hlt1
    rw [t1, t4] at this
    exact this
  · intro he
    have he1 : sub'.done = sub1.done := by
      have h6 : sub1.done = sub.done := t6
      omega
    rw [t1] at p17
    rw [p17 he1, t8]
  · intro hlt
    have hlt1 : sub.transmitted < sub1.transmitted := by
      have h6 : sub'.transmitted = sub1.transmitted := p6
      omega
    have := ta hlt1
    rw [p6]
    exact this
  · have h6 : sub1.done = sub.done := t6
    have h3 : sub1.nsteps = sub.nsteps := t3
    rw [h6, h3] at p25
    exact p25

/-- Specification of the fallback per-sub scan over the whole sub list
(SIMPLE protocol): identical in shape to the batched scan's specification. -/
theorem subsPassS_spec (hw : EvKey → Bool) (stepSize slice fuel : Nat) (hs : 0 < slice)
    (hsd : slice ∣ NCCL_STEPS) :
    ∀ (subs : List ProxySubArgs) (c : Comm) (d : Nat) (c' : Comm)
      (subs' : List ProxySubArgs) (d' : Nat),
      subsPassS hw stepSize slice NCCL_PROTO_SIMPLE fuel c subs d = .ok (c', subs', d') →
      (∀ sub ∈ subs, SubBounds slice sub ∧ slice ∣ sub.nsteps) →
      (subs.map (fun x => x.resIdx)).Nodup →
      subs'.length = subs.length ∧
      d' + countFinished subs = d + countFinished subs' ∧
      (∀ r, r ∉ subs.map (fun x => x.resIdx) → c'.resources r = c.resources r) ∧
      (∀ r, (c'.resources r).ceTail = (c.resources r).ceTail ∧
            (c'.resources r).sizesFifo = (c.resources r).sizesFifo ∧
            (c'.resources r).recvFifo = (c.resources r).recvFifo ∧
            (c'.resources r).ceDevBuff = (c.resources r).ceDevBuff ∧
            (c'.resources r).offsets = (c.resources r).offsets) ∧
      c'.nChannels = c.nChannels ∧ c'.stepSize = c.stepSize ∧
      (∀ (i : Nat) (a b : ProxySubArgs), subs[i]? = some a → subs'[i]? = some b →
        b.resIdx = a.resIdx ∧ b.channelId = a.channelId ∧ b.nsteps = a.nsteps ∧
        b.base = a.base ∧ b.posted = a.posted ∧ SubBounds slice b ∧
        a.done ≤ b.done ∧ a.transmitted ≤ b.transmitted ∧
        (a.transmitted < b.transmitted →
          a.base + (b.transmitted - slice) < (c.resources a.resIdx).ceTail) ∧
        (a.done < b.done → (c'.resources a.resIdx).shmTail = a.base + b.done) ∧
        (b.done = a.done →
          (c'.resources a.resIdx).shmTail = (c.resources a.resIdx).shmTail)) := by
  intro subs
  induction subs with
  | nil =>
    intro c d c' subs' d' h hbs hnd
    simp only [subsPassS] at h
    cases h
    refine ⟨rfl, rfl, fun r _ => rfl, fun r => ⟨rfl, rfl, rfl, rfl, rfl⟩, rfl, rfl, ?_⟩
    intro i a b ha _
    simp at ha
  | cons sub rest ih =>
    intro c d c' subs' d' h hbs hnd
    simp only [subsPassS] at h
    rw [exceptBind_ok_iff] at h
    obtain ⟨⟨c1, sub1, d1⟩, h1, h⟩ := h
    rw [exceptBind_ok_iff] at h
    obtain ⟨⟨c2, rest2, d2⟩, h2, h⟩ := h
    cases h
    simp only [List.map_cons] at hnd
    rw [List.nodup_cons] at hnd
    obtain ⟨hbhead, hdnhead⟩ := hbs sub (by simp)
    obtain ⟨s1, s2, s3, s4, s5, s6, s7, s8, s9, s10, s11, s12, s13, s14, s15, s16⟩ :=
      subPassS_spec hw stepSize slice fuel hs hsd c sub d c1 sub1 d1 h1 hbhead hdnhead
    obtain ⟨r1, r2, r3, r4, r5, r6, r7⟩ :=
      ih c1 d1 c2 rest2 d2 h2 (fun x hx => hbs x (by simp [hx])) hnd.2
    have hheadnotin : sub.resIdx ∉ rest.map (fun x => x.resIdx) := hnd.1
    refine ⟨?_, ?_, ?_, ?_, ?_, ?_, ?_⟩
    · simp [r1]
    · dsimp only
      have hhead : d1 + (if sub.done == sub.nsteps then 1 else 0) =
          d + (if sub1.done == sub1.nsteps then 1 else 0) := by
        obtain ⟨hc1, hc2, hc3, hc4, hc5⟩ := hbhead
        obtain ⟨hd1, hd2, hd3, hd4, hd5⟩ := s1
        rw [s16, s4]
        simp only [beq_iff_eq, s4]
        split_ifs <;> omega
      have hcf1 : countFinished (sub :: rest) =
          countFinished rest + (if sub.done == sub.nsteps then 1 else 0) :=
        List.countP_cons _ _ _
      have hcf2 : countFinished (sub1 :: rest2) =
          countFinished rest2 + (if sub1.done == sub1.nsteps then 1 else 0) :=
        List.countP_cons _ _ _
      rw [hcf1, hcf2]
      omega
    · intro r hr
      simp only [List.map_cons, List.mem_cons] at hr
      push_neg at hr
      rw [r3 r (by simpa using hr.2), s9 r hr.1]
    · intro r
      obtain ⟨e1, e2, e3, e4, e5⟩ := r4 r
      obtain ⟨f1, f2, f3, f4, f5⟩ := s10 r
      exact ⟨e1.trans f1, e2.trans f2, e3.trans f3, e4.trans f4, e5.trans f5⟩
    · exact r5.trans s14
    · exact r6.trans s15
    · intro i a b hia hib
      cases i with
      | zero =>
        simp only [List.getElem?_cons_zero, Option.some.injEq] at hia hib
        subst hia
        subst hib
        have hfinal : c2.resources sub.resIdx = c1.resources sub.resIdx :=
          r3 sub.resIdx hheadnotin
        refine ⟨s2, s3, s4, s5, s6, s1, s7, s8, ?_, ?_, ?_⟩
        · intro hlt
          exact s13 hlt
        · intro hlt
          rw [hfinal]
          exact s11 hlt
        · intro he
          rw [hfinal]
          exact s12 he
      | succ j =>
        simp only [List.getElem?_cons_succ] at hia hib
        obtain ⟨q1, q2, q3, q4, q5, q6, q7, q8, q9, q10, q11⟩ := r7 j a b hia hib
        have hamem : a.resIdx ∈ rest.map (fun x => x.resIdx) := by
          have : a ∈ rest := by
            have := List.getElem?_eq_some_iff.mp hia
            obtain ⟨hj, hja⟩ := this
            exact hja ▸ List.getElem_mem hj
          exact List.mem_map_of_mem _ this
        have hane : a.resIdx ≠ sub.resIdx := by
          intro hx
          exact hheadnotin (hx ▸ hamem)
        have hc1c : c1.resources a.resIdx = c.resources a.resIdx := s9 a.resIdx hane
        refine ⟨q1, q2, q3, q4, q5, q6, q7, q8, ?_, ?_, ?_⟩
        · intro hlt
          have := q9 hlt
          rw [hc1c] at this
          exact this
        · intro hlt
          have := q10 hlt
          exact this
        · intro he
          have := q11 he
          rw [hc1c] at this
          exact this

/-- Invariant transfer through one fallback per-sub scan (the analogue of the
batched transfer lemma). -/
theorem passInvS (s0 : State) (hinit : InitOk s0) (hw : EvKey → Bool)
    (stepSize fuel : Nat)
    (c : Comm) (subs : List ProxySubArgs) (d : Nat)
    (c1 : Comm) (subs1 : List ProxySubArgs) (d1 : Nat)
    (hpass : subsPassS hw stepSize s0.args.sliceSteps NCCL_PROTO_SIMPLE fuel c subs d =
      .ok (c1, subs1, d1))
    (hlen : subs.length = s0.args.subs.length)
    (hd : d = countFinished subs)
    (hpre : ∀ (i : Nat) (a b : ProxySubArgs), subs[i]? = some a →
      s0.args.subs[i]? = some b →
      a.resIdx = b.resIdx ∧ a.nsteps = b.nsteps ∧ a.channelId = b.channelId ∧
      a.base = roundUp ((s0.comm.resources b.resIdx).step) s0.args.chunkSteps ∧
      SubBounds s0.args.sliceSteps a ∧ SubTail c a) :
    subs1.length = s0.args.subs.length ∧ d1 = countFinished subs1 ∧
    (∀ (i : Nat) (a b : ProxySubArgs), subs1[i]? = some a →
      s0.args.subs[i]? = some b →
      a.resIdx = b.resIdx ∧ a.nsteps = b.nsteps ∧ a.channelId = b.channelId ∧
      a.base = roundUp ((s0.comm.resources b.resIdx).step) s0.args.chunkSteps ∧
      SubBounds s0.args.sliceSteps a ∧ SubTail c1 a) ∧
    (∀ (i : Nat) (a b : ProxySubArgs), subs[i]? = some a → subs1[i]? = some b →
      a.done ≤ b.done ∧ a.transmitted ≤ b.transmitted ∧
      (a.transmitted < b.transmitted →
        a.base + (b.transmitted - s0.args.sliceSteps) < (c.resources a.resIdx).ceTail) ∧
      (a.done < b.done → (c1.resources a.resIdx).shmTail = a.base + b.done)) := by
  have hbs : ∀ sub ∈ subs, SubBounds s0.args.sliceSteps sub ∧
      s0.args.sliceSteps ∣ sub.nsteps := by
    intro sub hsub
    obtain ⟨i, hi⟩ := List.mem_iff_getElem?.mp hsub
    have hilt : i < subs.length := (List.getElem?_eq_some_iff.mp hi).1
    have hilt0 : i < s0.args.subs.length := by omega
    obtain ⟨e1, e2, e3, e4, e5, e6⟩ :=
      hpre i sub (s0.args.subs[i]) hi (List.getElem?_eq_getElem hilt0)
    refine ⟨e5, ?_⟩
    rw [e2]
    exact hinit.nstepsDvd _ (List.getElem_mem hilt0)
  have hnd : (subs.map (fun x => x.resIdx)).Nodup := by
    rw [map_resIdx_eq_of_ptwise subs s0.args.subs hlen
      (fun i a b ha hb => (hpre i a b ha hb).1)]
    exact hinit.resNodup
  obtain ⟨r1, r2, r3, r4, r5, r6, r7⟩ :=
    subsPassS_spec hw stepSize s0.args.sliceSteps fuel hinit.slicePos hinit.sliceDvdSteps
      subs c d c1 subs1 d1 hpass hbs hnd
  refine ⟨r1.trans hlen, by omega, ?_, ?_⟩
  · intro i a b ha hb
    have hia : i < subs1.length := (List.getElem?_eq_some_iff.mp ha).1
    have hia2 : i < subs.length := by omega
    have hpa : subs[i]? = some subs[i] := List.getElem?_eq_getElem hia2
    obtain ⟨q1, q2, q3, q4, q5, q6, q7, q8, q9, q10, q11⟩ := r7 i (subs[i]) a hpa ha
    obtain ⟨e1, e2, e3, e4, e5, e6⟩ := hpre i (subs[i]) b hpa hb
    refine ⟨q1.trans e1, q3.trans e2, q2.trans e3, q4.trans e4, q6, ?_⟩
    intro hpos
    rcases Nat.lt_or_ge (subs[i]).done a.done with hcase | hcase
    · rw [q1, q4]
      exact q10 hcase
    · have heq : a.done = (subs[i]).done := by omega
      have hpos0 : 0 < (subs[i]).done := by omega
      rw [q1, q4, heq, q11 heq]
      exact e6 hpos0
  · intro i a b ha hb
    obtain ⟨q1, q2, q3, q4, q5, q6, q7, q8, q9, q10, q11⟩ := r7 i a b ha hb
    exact ⟨q7, q8, q9, q10⟩

/-- One successful fallback progress call preserves the reachability
invariant. -/
theorem progressSimple_step (s0 s s' : State) (hw : EvKey → Bool) (fuel : Nat)
    (hinit : InitOk s0) (hinv : ProgressInv s0 s)
    (h : p2pSendProxyProgressSimple hw fuel s = .ok s') :
    ProgressInv s0 s' := by
  have hproto : s.args.protocol = NCCL_PROTO_SIMPLE := hinv.proto_eq.trans hinit.protoSimple
  unfold p2pSendProxyProgressSimple at h
  by_cases hready : s.args.state = .ready
  · have hargs0 : s.args = s0.args := hinv.ready_args hready
    have hargs1 : readyReset s =
        { s.args with
          subs := s.args.subs.map (fun sub =>
            { sub with
              base := roundUp ((s.comm.resources sub.resIdx).step) s.args.chunkSteps,
              posted := 0, transmitted := 0, done := 0 }),
          state := .progress } := by
      rw [readyReset, if_pos hready]
    rw [hargs1] at h
    dsimp only at h
    rw [if_pos rfl] at h
    rw [exceptBind_ok_iff] at h
    obtain ⟨⟨c1, subs1, d1⟩, hpass, hfin⟩ := h
    try dsimp only at hfin
    rw [Except.ok.injEq] at hfin
    have hargsEq := congrArg State.args hfin.symm
    have hres : s'.comm.resources = c1.resources := by rw [← hfin]
    rw [hproto, hinv.slice_eq] at hpass
    have hD : s.args.done = 0 := by
      rw [hargs0]
      exact hinit.doneZero
    have hcnt0 : countFinished (s.args.subs.map (fun sub =>
        { sub with
          base := roundUp ((s.comm.resources sub.resIdx).step) s.args.chunkSteps,
          posted := 0, transmitted := 0, done := 0 })) = 0 := by
      rw [countFinished, List.countP_eq_zero]
      intro x hx
      obtain ⟨y, hy, hxy⟩ := List.mem_map.mp hx
      subst hxy
      have hy0 : y ∈ s0.args.subs := by
        rw [← hargs0]
        exact hy
      have hpos := hinit.nstepsPos y hy0
      simp only [beq_iff_eq]
      try dsimp only
      omega
    have hpre : ∀ (i : Nat) (a b : ProxySubArgs),
        (s.args.subs.map (fun sub =>
          { sub with
            base := roundUp ((s.comm.resources sub.resIdx).step) s.args.chunkSteps,
            posted := 0, transmitted := 0, done := 0 }))[i]? = some a →
        s0.args.subs[i]? = some b →
        a.resIdx = b.resIdx ∧ a.nsteps = b.nsteps ∧ a.channelId = b.channelId ∧
        a.base = roundUp ((s0.comm.resources b.resIdx).step) s0.args.chunkSteps ∧
        SubBounds s0.args.sliceSteps a ∧ SubTail s.comm a := by
      intro i a b ha hb
      rw [List.getElem?_map, hargs0, hb] at ha
      have ha2 : ({ b with
          base := roundUp ((s.comm.resources b.resIdx).step) s0.args.chunkSteps,
          posted := 0, transmitted := 0, done := 0 } : ProxySubArgs) = a := by
        simpa using ha
      subst ha2
      refine ⟨rfl, rfl, rfl, ?_, ?_, ?_⟩
      · dsimp only
        rw [hinv.ready_step hready b.resIdx]
      · exact ⟨Nat.zero_le _, Nat.zero_le _, Nat.zero_le _, dvd_zero _, dvd_zero _⟩
      · intro hx
        exact absurd hx (Nat.lt_irrefl 0)
    obtain ⟨k1, k2, k3, -⟩ := passInvS s0 hinit hw s.comm.stepSize fuel s.comm _ s.args.done
      c1 subs1 d1 hpass (by rw [List.length_map, hargs0]) (by rw [hD, hcnt0]) hpre
    have hsubs2 : s'.args.subs = subs1 := by
      rw [hargsEq]
      split <;> rfl
    have hdone2 : s'.args.done = d1 := by
      rw [hargsEq]
      split <;> rfl
    have hstate2 : s'.args.state ≠ ProxyOpState.ready := by
      rw [hargsEq]
      split
      · intro hx
        cases hx
      · intro hx
        cases hx
    have hsl2 : s'.args.sliceSteps = s.args.sliceSteps := by
      rw [hargsEq]
      split <;> rfl
    have hch2 : s'.args.chunkSteps = s.args.chunkSteps := by
      rw [hargsEq]
      split <;> rfl
    have hpr2 : s'.args.protocol = s.args.protocol := by
      rw [hargsEq]
      split <;> rfl
    refine ⟨hsl2.trans hinv.slice_eq, hch2.trans hinv.chunk_eq, hpr2.trans hinv.proto_eq,
      ?_, fun hx => absurd hx hstate2, fun hx => absurd hx hstate2, ?_, ?_⟩
    · rw [hsubs2]
      exact k1
    · intro _ i a b ha hb
      rw [hsubs2] at ha
      obtain ⟨e1, e2, e3, e4, e5, e6⟩ := k3 i a b ha hb
      refine ⟨e1, e2, e3, e4, e5, ?_⟩
      intro hx
      rw [hres]
      exact e6 hx
    · intro _
      rw [hdone2, hsubs2]
      exact k2
  · have hargs1 : readyReset s = s.args := by
      rw [readyReset, if_neg hready]
    rw [hargs1] at h
    dsimp only at h
    by_cases hprog : s.args.state = .progress
    · rw [if_pos hprog] at h
      rw [exceptBind_ok_iff] at h
      obtain ⟨⟨c1, subs1, d1⟩, hpass, hfin⟩ := h
      try dsimp only at hfin
      rw [Except.ok.injEq] at hfin
      have hargsEq := congrArg State.args hfin.symm
      have hres : s'.comm.resources = c1.resources := by rw [← hfin]
      rw [hproto, hinv.slice_eq] at hpass
      obtain ⟨k1, k2, k3, -⟩ := passInvS s0 hinit hw s.comm.stepSize fuel s.comm s.args.subs
        s.args.done c1 subs1 d1 hpass hinv.len_eq (hinv.run_count hready)
        (hinv.run_subs hready)
      have hsubs2 : s'.args.subs = subs1 := by
        rw [hargsEq]
        split <;> rfl
      have hdone2 : s'.args.done = d1 := by
        rw [hargsEq]
        split <;> rfl
      have hstate2 : s'.args.state ≠ ProxyOpState.ready := by
        rw [hargsEq]
        split
        · intro hx
          cases hx
        · intro hx
          exact hready hx
      have hsl2 : s'.args.sliceSteps = s.args.sliceSteps := by
        rw [hargsEq]
        split <;> rfl
      have hch2 : s'.args.chunkSteps = s.args.chunkSteps := by
        rw [hargsEq]
        split <;> rfl
      have hpr2 : s'.args.protocol = s.args.protocol := by
        rw [hargsEq]
        split <;> rfl
      refine ⟨hsl2.trans hinv.slice_eq, hch2.trans hinv.chunk_eq, hpr2.trans hinv.proto_eq,
        ?_, fun hx => absurd hx hstate2, fun hx => absurd hx hstate2, ?_, ?_⟩
      · rw [hsubs2]
        exact k1
      · intro _ i a b ha hb
        rw [hsubs2] at ha
        obtain ⟨e1, e2, e3, e4, e5, e6⟩ := k3 i a b ha hb
        refine ⟨e1, e2, e3, e4, e5, ?_⟩
        intro hx
        rw [hres]
        exact e6 hx
      · intro _
        rw [hdone2, hsubs2]
        exact k2
    · rw [if_neg hprog] at h
      rw [Except.ok.injEq] at h
      have hargsEq := congrArg State.args h.symm
      have hres : s'.comm.resources = s.comm.resources := by rw [← h]
      refine ⟨?_, ?_, ?_, ?_, ?_, ?_, ?_, ?_⟩
      · rw [hargsEq]
        exact hinv.slice_eq
      · rw [hargsEq]
        exact hinv.chunk_eq
      · rw [hargsEq]
        exact hinv.proto_eq
      · rw [hargsEq]
        exact hinv.len_eq
      · intro hx
        rw [hargsEq] at hx
        exact absurd hx hready
      · intro hx
        rw [hargsEq] at hx
        exact absurd hx hready
      · intro _ i a b ha hb
        rw [hargsEq] at ha
        obtain ⟨e1, e2, e3, e4, e5, e6⟩ := hinv.run_subs hready i a b ha hb
        refine ⟨e1, e2, e3, e4, e5, ?_⟩
        intro hx
        rw [hres]
        exact e6 hx
      · intro _
        rw [hargsEq]
        exact hinv.run_count hready

/-- Every state reachable under the fallback path satisfies the invariant. -/
theorem reachS_inv (s0 s : State) (hinit : InitOk s0) (hr : ReachS s0 s) :
    ProgressInv s0 s := by
  induction hr with
  | refl =>
    exact ⟨rfl, rfl, rfl, rfl, fun _ => rfl, fun _ r => rfl,
      fun hx => absurd hinit.stateReady hx, fun hx => absurd hinit.stateReady hx⟩
  | prog s1 s2 hw fuel hr1 hstep ih =>
    exact progressSimple_step s0 s1 s2 hw fuel hinit ih hstep
  | producer s1 s2 hr1 hstep ih =>
    exact producer_inv s0 s1 s2 ih hstep

/-- Relational specification of one batched progress call from a Progress
state: per position, cursors only grow, both pre-cursors are slice-aligned,
`transmitted` advanced only under the producer-tail guard, and a `done`
advance republishes the consumer-visible tail as `base + done`. -/
theorem progressMerge_rel (s0 s s' : State) (hw : EvKey → Bool) (qf fuel : Nat)
    (hinit : InitOk s0) (hinv : ProgressInv s0 s)
    (hprog : s.args.state = .progress)
    (h : p2pSendProxyProgressMerge hw qf fuel s = .ok s') :
    ∀ (i : Nat) (a b : ProxySubArgs), s.args.subs[i]? = some a →
      s'.args.subs[i]? = some b →
      a.done ≤ b.done ∧ a.transmitted ≤ b.transmitted ∧
      s0.args.sliceSteps ∣ a.done ∧ s0.args.sliceSteps ∣ a.transmitted ∧
      s0.args.sliceSteps ∣ b.done ∧ s0.args.sliceSteps ∣ b.transmitted ∧
      (a.transmitted < b.transmitted →
        a.base + (b.transmitted - s0.args.sliceSteps) <
          (s.comm.resources a.resIdx).ceTail) ∧
      (a.done < b.done → (s'.comm.resources a.resIdx).shmTail = a.base + b.done) := by
  have hready : s.args.state ≠ .ready := by
    rw [hprog]
    intro hx
    cases hx
  have hproto : s.args.protocol = NCCL_PROTO_SIMPLE := hinv.proto_eq.trans hinit.protoSimple
  unfold p2pSendProxyProgressMerge at h
  have hargs1 : readyReset s = s.args := by
    rw [readyReset, if_neg hready]
  rw [hargs1] at h
  dsimp only at h
  rw [if_pos hprog] at h
  rw [exceptBind_ok_iff] at h
  obtain ⟨⟨c1, subs1, d1⟩, hpass, hrest⟩ := h
  try dsimp only at hrest
  rw [exceptBind_ok] at hrest
  try dsimp only at hrest
  obtain ⟨hargsEq, hres, -, -⟩ := progressTail_spec _ _ _ hrest
  rw [hproto, hinv.slice_eq] at hpass
  obtain ⟨k1, k2, k3, k4⟩ := passInv s0 hinit hw qf fuel s.comm s.args.subs s.args.done
    c1 subs1 d1 hpass hinv.len_eq (hinv.run_count hready) (hinv.run_subs hready)
  have hsubs2 : s'.args.subs = subs1 := by
    rw [hargsEq]
    split <;> rfl
  intro i a b ha hb
  rw [hsubs2] at hb
  obtain ⟨m1, m2, m3, m4⟩ := k4 i a b ha hb
  have hilt : i < s.args.subs.length := (List.getElem?_eq_some_iff.mp ha).1
  have hilt0 : i < s0.args.subs.length := by
    have := hinv.len_eq
    omega
  obtain ⟨e1, e2, e3, e4, ⟨p1, p2, p3, p4, p5⟩, e6⟩ :=
    hinv.run_subs hready i a (s0.args.subs[i]) ha (List.getElem?_eq_getElem hilt0)
  obtain ⟨f1, f2, f3, f4, ⟨g1, g2, g3, g4, g5⟩, f6⟩ :=
    k3 i b (s0.args.subs[i]) hb (List.getElem?_eq_getElem hilt0)
  refine ⟨m1, m2, p4, p5, g4, g5, m3, ?_⟩
  intro hlt
  rw [hres]
  exact m4 hlt

/-- The witness op state is well-formed. -/
theorem wC1init : InitOk wC1s0 :=
  ⟨rfl, rfl, by decide, by decide, by decide, by decide, by decide, by decide, rfl⟩

/-- The witness producer publication step. -/
theorem wC1prod : ProducerStep wC1s0 wC1pub :=
  ProducerStep.publish wC1s0 0 1 (fun _ => 4) (by decide)

/-- The mid-run witness state is reachable under the batched path. -/
theorem wC1reachM1 : ReachM wC1s0 wC1m1 :=
  ReachM.prog wC1pub wC1m1 (fun _ => true) 4 12
    (ReachM.producer wC1s0 wC1pub ReachM.refl wC1prod) (by rfl)

/-- The completed witness state is reachable under the batched path. -/
theorem wC1reachM2 : ReachM wC1s0 wC1m2 :=
  ReachM.prog wC1m1 wC1m2 (fun _ => true) 4 12 wC1reachM1 (by rfl)

/-- The completed witness state is reachable under the fallback path. -/
theorem wC1reachS1 : ReachS wC1s0 wC1t1 :=
  ReachS.prog wC1pub wC1t1 (fun _ => true) 12
    (ReachS.producer wC1s0 wC1pub ReachS.refl wC1prod) (by rfl)

/-- Claim C2: in every reachable state of the (batched) progress routine —
under any interleaving of progress calls and producer tail publications from
a well-formed initial op — each sub-operation of an op that has entered the
Progress state satisfies `done ≤ transmitted`,
`transmitted ≤ done + NCCL_STEPS` and `transmitted ≤ nsteps`, and once `done`
has advanced the consumer-visible shared tail of its connection reads
`base + done`; moreover, across one further successful progress call the
cursors only grow in slice-aligned increments, `transmitted` advanced only if
the producer's published tail exceeded `base + (transmitted - slice)`
(i.e. only while `base + transmitted < ceTail` held for the advancing
slices), and any advance of `done` republishes the consumer-visible tail as
`base + done`. -/
theorem claim2_progress_invariants (s0 s : State) (hinit : InitOk s0)
    (hr : ReachM s0 s) :
    (s.args.state ≠ ProxyOpState.ready → ∀ sub ∈ s.args.subs,
      sub.done ≤ sub.transmitted ∧ sub.transmitted ≤ sub.done + NCCL_STEPS ∧
      sub.transmitted ≤ sub.nsteps ∧
      (0 < sub.done → (s.comm.resources sub.resIdx).shmTail = sub.base + sub.done)) ∧
    (∀ (s' : State) (hw : EvKey → Bool) (qf fuel : Nat),
      s.args.state = ProxyOpState.progress →
      p2pSendProxyProgressMerge hw qf fuel s = .ok s' →
      ∀ (i : Nat) (a b : ProxySubArgs), s.args.subs[i]? = some a →
        s'.args.subs[i]? = some b →
        a.done ≤ b.done ∧ a.transmitted ≤ b.transmitted ∧
        s0.args.sliceSteps ∣ a.done ∧ s0.args.sliceSteps ∣ a.transmitted ∧
        s0.args.sliceSteps ∣ b.done ∧ s0.args.sliceSteps ∣ b.transmitted ∧
        (a.transmitted < b.transmitted →
          a.base + (b.transmitted - s0.args.sliceSteps) <
            (s.comm.resources a.resIdx).ceTail) ∧
        (a.done < b.done → (s'.comm.resources a.resIdx).shmTail = a.base + b.done)) := by
  have hinv := reachM_inv s0 s hinit hr
  constructor
  · intro hnr sub hsub
    obtain ⟨i, hi⟩ := List.mem_iff_getElem?.mp hsub
    have hilt : i < s.args.subs.length := (List.getElem?_eq_some_iff.mp hi).1
    have hilt0 : i < s0.args.subs.length := by
      have := hinv.len_eq
      omega
    obtain ⟨e1, e2, e3, e4, ⟨b1, b2, b3, b4, b5⟩, e6⟩ :=
      hinv.run_subs hnr i sub (s0.args.subs[i]) hi (List.getElem?_eq_getElem hilt0)
    exact ⟨b1, b2, b3, e6⟩
  · intro s' hw qf fuel hprog hcall
    exact progressMerge_rel s0 s s' hw qf fuel hinit hinv hprog hcall

/-- Witness for claim C2 at a concrete input: the single-sub witness op after
one publication and one batched progress pass has its slice accumulated
(`transmitted = 1`) but not yet resolved (`done = 0`), within all bounds. -/
theorem claim2_progress_invariants_witness :
    (0 : Nat) ≤ 1 ∧ (1 : Nat) ≤ 0 + NCCL_STEPS ∧ (1 : Nat) ≤ 1 ∧
      (0 < 0 → (wC1m1.comm.resources 0).shmTail = 0 + 0) :=
  (claim2_progress_invariants wC1s0 wC1m1 wC1init wC1reachM1).1 (by decide)
    ⟨0, 0, 1, 0, 0, 1, 0⟩ (by decide)

/-- Claim C1: from any well-formed initial op, for every pair of runs — one
under the batched (`MERGE_MEMCPY == 1`) progress path and one under the
un-batched fallback path, each interleaved arbitrarily with producer tail
publications — once both runs have completed every sub-operation (all
completion events resolved and every `done` cursor at `nsteps`), the
consumer-visible shared tail of each sub-operation's connection holds the
same value in both end states, namely the chunk-rounded initial step cursor
plus the sub-operation's step count. -/
theorem claim1_merge_simple_end_tail_eq (s0 sM sS : State) (hinit : InitOk s0)
    (hrM : ReachM s0 sM) (hrS : ReachS s0 sS)
    (hnrM : sM.args.state ≠ ProxyOpState.ready)
    (hnrS : sS.args.state ≠ ProxyOpState.ready)
    (hcM : ∀ sub ∈ sM.args.subs, sub.done = sub.nsteps)
    (hcS : ∀ sub ∈ sS.args.subs, sub.done = sub.nsteps) :
    ∀ (i : Nat) (a b c : ProxySubArgs), sM.args.subs[i]? = some a →
      sS.args.subs[i]? = some b → s0.args.subs[i]? = some c →
      a.resIdx = c.resIdx ∧ b.resIdx = c.resIdx ∧
      (sM.comm.resources c.resIdx).shmTail =
        roundUp ((s0.comm.resources c.resIdx).step) s0.args.chunkSteps + c.nsteps ∧
      (sS.comm.resources c.resIdx).shmTail =
        roundUp ((s0.comm.resources c.resIdx).step) s0.args.chunkSteps + c.nsteps ∧
      (sM.comm.resources c.resIdx).shmTail = (sS.comm.resources c.resIdx).shmTail := by
  have hinvM := reachM_inv s0 sM hinit hrM
  have hinvS := reachS_inv s0 sS hinit hrS
  intro i a b c ha hb hc
  have hiltM : i < sM.args.subs.length := (List.getElem?_eq_some_iff.mp ha).1
  have hiltS : i < sS.args.subs.length := (List.getElem?_eq_some_iff.mp hb).1
  have hamem : a ∈ sM.args.subs := by
    obtain ⟨hj, hja⟩ := List.getElem?_eq_some_iff.mp ha
    exact hja ▸ List.getElem_mem hj
  have hbmem : b ∈ sS.args.subs := by
    obtain ⟨hj, hja⟩ := List.getElem?_eq_some_iff.mp hb
    exact hja ▸ List.getElem_mem hj
  have hcmem : c ∈ s0.args.subs := by
    obtain ⟨hj, hja⟩ := List.getElem?_eq_some_iff.mp hc
    exact hja ▸ List.getElem_mem hj
  have hcpos : 0 < c.nsteps := hinit.nstepsPos c hcmem
  obtain ⟨e1, e2, e3, e4, e5, e6⟩ := hinvM.run_subs hnrM i a c ha hc
  obtain ⟨f1, f2, f3, f4, f5, f6⟩ := hinvS.run_subs hnrS i b c hb hc
  have haD : a.done = c.nsteps := (hcM a hamem).trans e2
  have hbD : b.done = c.nsteps := (hcS b hbmem).trans f2
  have htM : (sM.comm.resources c.resIdx).shmTail =
      roundUp ((s0.comm.resources c.resIdx).step) s0.args.chunkSteps + c.nsteps := by
    have := e6 (by omega)
    rw [e1, e4] at this
    rw [this, haD]
  have htS : (sS.comm.resources c.resIdx).shmTail =
      roundUp ((s0.comm.resources c.resIdx).step) s0.args.chunkSteps + c.nsteps := by
    have := f6 (by omega)
    rw [f1, f4] at this
    rw [this, hbD]
  exact ⟨e1, f1, htM, htS, htM.trans htS.symm⟩

/-- Witness for claim C1 at a concrete input: the single-sub witness op,
completed under the batched path in two passes (accumulate + drain, then
resolve) and under the fallback path in one pass, ends with the same
consumer-visible tail `roundUp 0 1 + 1 = 1` on both sides. -/
theorem claim1_merge_simple_end_tail_eq_witness :
    (0 : Nat) = 0 ∧ (0 : Nat) = 0 ∧
    (wC1m2.comm.resources 0).shmTail =
      roundUp ((wC1s0.comm.resources 0).step) wC1s0.args.chunkSteps + 1 ∧
    (wC1t1.comm.resources 0).shmTail =
      roundUp ((wC1s0.comm.resources 0).step) wC1s0.args.chunkSteps + 1 ∧
    (wC1m2.comm.resources 0).shmTail = (wC1t1.comm.resources 0).shmTail :=
  claim1_merge_simple_end_tail_eq wC1s0 wC1m2 wC1t1 wC1init wC1reachM2 wC1reachS1
    (by decide) (by decide) (by decide) (by decide) 0
    ⟨0, 0, 1, 0, 0, 1, 1⟩ ⟨0, 0, 1, 0, 0, 1, 1⟩ ⟨0, 0, 1, 0, 0, 0, 0⟩
    (by decide) (by decide) (by decide)

end P2P
